import Mathlib

/-!
Verification development for the yt-analyze repository (v2 analysis route
embedded in src/app/page.tsx, plus src/app/api/analyze/route.js).

Strings are modeled as lists of characters, timestamps as integer
milliseconds, and machine numbers as Nat/Int (JS number arithmetic on the
integer counters of this pipeline is exact in that range; the one
floating-point expression, Math.log10 in computeVelocity, is modeled over ℝ).
-/

/-- Shorthand turning a string literal into the list-of-characters model. -/
def str (s : String) : List Char := s.data

/-- Models the JS whitespace class used by String.prototype.trim. -/
def isWsChar (c : Char) : Bool := c = ' ' || c = '\t' || c = '\n' || c = '\r'

/-- Models the Unicode class [\p{L}\p{N}] of the cleanTitle regex, restricted to
the Latin ranges (ASCII letters and digits, Latin-1 Supplement, Latin
Extended-A/B, Latin Extended Additional, which covers Vietnamese). -/
def isWordChar (c : Char) : Bool :=
  (97 ≤ c.toNat && c.toNat ≤ 122) || (65 ≤ c.toNat && c.toNat ≤ 90) || c.isDigit ||
  (0xC0 ≤ c.toNat && c.toNat ≤ 0x24F && c.toNat ≠ 0xD7 && c.toNat ≠ 0xF7) ||
  (0x1E00 ≤ c.toNat && c.toNat ≤ 0x1EFF)

/-- Models JS String.prototype.toLowerCase restricted to the Latin script:
ASCII, Latin-1 Supplement, Latin Extended-A and Latin Extended Additional
(uppercase code points of the last two ranges are even, one below their
lowercase pair). -/
def jsToLower (c : Char) : Char :=
  let n := c.toNat
  if 65 ≤ n && n ≤ 90 then Char.ofNat (n + 32)
  else if 0xC0 ≤ n && n ≤ 0xDE && n ≠ 0xD7 then Char.ofNat (n + 32)
  else if 0x100 ≤ n && n ≤ 0x177 && n % 2 = 0 then Char.ofNat (n + 1)
  else if 0x1E00 ≤ n && n ≤ 0x1EFF && n % 2 = 0 then Char.ofNat (n + 1)
  else c

/-- Collapses runs of spaces to a single space; models the second replace
(/\s+/g, " ") of cleanTitle, after every stripped or whitespace character
has been turned into a plain space. -/
def collapseSp : List Char → List Char
  | [] => []
  | [c] => [c]
  | c :: d :: rest =>
    if c = ' ' && d = ' ' then collapseSp (d :: rest) else c :: collapseSp (d :: rest)

/-- Removes leading and trailing spaces; models String.prototype.trim on the
already-collapsed text. -/
def trimSp (l : List Char) : List Char :=
  ((l.dropWhile (· = ' ')).reverse.dropWhile (· = ' ')).reverse

/-- cleanTitle from src/app/page.tsx: lower-case, replace every character that
is not a letter, digit or whitespace by a space, collapse whitespace, trim. -/
def cleanTitle (t : List Char) : List Char :=
  trimSp (collapseSp (t.map (fun c => if isWordChar (jsToLower c) then jsToLower c else ' ')))

/-- Models JS String.prototype.split(" ") on the character-list model:
splits at every single space, keeping empty fragments. -/
def splitSp : List Char → List (List Char)
  | [] => [[]]
  | c :: rest =>
    if c = ' ' then [] :: splitSp rest
    else
      match splitSp rest with
      | [] => [[c]]
      | g :: gs => (c :: g) :: gs

/-- Models Array.prototype.join(" ") on the character-list model. -/
def joinSp : List (List Char) → List Char
  | [] => []
  | [w] => w
  | w :: ws => w ++ ' ' :: joinSp ws

/-- Models JS String.prototype.includes: the needle occurs as a contiguous
substring of the haystack. -/
def jsIncludes (hay needle : List Char) : Bool :=
  match hay with
  | [] => needle.isEmpty
  | c :: t => needle.isPrefixOf (c :: t) || jsIncludes t needle

/-- The fixed stopword set of extractNgrams (src/app/page.tsx), in source order. -/
def stopWords : List (List Char) :=
  [str "review", str "tóm", str "tắt", str "phim", str "full", str "tập", str "ep",
   str "phần", str "p1", str "p2", str "p3", str "p4", str "p5", str "mới", str "hay",
   str "nhất", str "và", str "là", str "của", str "cho", str "một", str "những",
   str "đã", str "khi", str "thì", str "với", str "trong", str "từ", str "đến"]

/-- Membership in the stopword set (stop.has in the source). -/
def isStop (w : List Char) : Bool := stopWords.contains w

/-- The token sequence the miner windows over: cleanTitle, split on spaces,
drop empty fragments, drop tokens shorter than 2 characters or in the
stopword set (the two chained filters of extractNgrams). -/
def wTokens (raw : List Char) : List (List Char) :=
  ((splitSp (cleanTitle raw)).filter (fun x => !x.isEmpty)).filter
    (fun x => decide (2 ≤ x.length) && !isStop x)

/-- The joined n-gram w.slice(i, i + n).join(" ") of the source. -/
def sliceGram (w : List (List Char)) (i n : Nat) : List Char :=
  joinSp ((w.drop i).take n)

/-- All joined n-grams (n = 2..4) emitted for one token sequence, in emission
order, after the per-gram stopword re-check of the source
(gram.split(" ").some(x => stop.has(x)) rejects the gram). -/
def gramsOf (w : List (List Char)) : List (List Char) :=
  (List.range' 2 3).flatMap (fun n =>
    (List.range (w.length + 1 - n)).filterMap (fun i =>
      let gram := sliceGram w i n
      if (splitSp gram).any isStop then none else some gram))

/-- First-match association lookup; models JS Map.prototype.get (keys of the
modeled maps are kept unique by jsMapSet). -/
def alook {κ ν : Type} [DecidableEq κ] (m : List (κ × ν)) (k : κ) : Option ν :=
  match m with
  | [] => none
  | e :: rest => if e.1 = k then some e.2 else alook rest k

/-- Models JS Map.prototype.set: update in place if the key is present,
otherwise append (JS Map preserves insertion order of keys). -/
def jsMapSet {κ ν : Type} [DecidableEq κ] (m : List (κ × ν)) (k : κ) (v : ν) :
    List (κ × ν) :=
  if (alook m k).isSome then m.map (fun e => if e.1 = k then (k, v) else e)
  else m ++ [(k, v)]

/-- freq.set(g, (freq.get(g) || 0) + 1) of the source. -/
def bump {κ : Type} [DecidableEq κ] (m : List (κ × Nat)) (k : κ) : List (κ × Nat) :=
  jsMapSet m k ((alook m k).getD 0 + 1)

/-- Stable insertion step for the descending sort. -/
def insertDescBy {α : Type} (key : α → Int) (x : α) : List α → List α
  | [] => [x]
  | y :: ys => if key x < key y then y :: insertDescBy key x ys else x :: y :: ys

/-- Stable descending sort by an integer key; models Array.prototype.sort with
the comparator (a, b) => key(b) - key(a) (JS sort is stable). -/
def sortDescBy {α : Type} (key : α → Int) : List α → List α
  | [] => []
  | x :: xs => insertDescBy key x (sortDescBy key xs)

/-- PatternEntry of the response: a joined phrase and its count. -/
structure PatternEntry where
  phrase : List Char
  count : Nat
deriving DecidableEq

/-- extractNgrams from src/app/page.tsx (nMin = 2, nMax = 4, the defaults used
at both call sites): build w per title, emit all re-checked n-grams into the
frequency map, sort entries descending by count, keep the top 50. -/
def extractNgrams (titles : List (List Char)) : List PatternEntry :=
  let freq := (titles.flatMap (fun raw => gramsOf (wTokens raw))).foldl bump []
  ((sortDescBy (fun e => (e.2 : Int)) freq).take 50).map (fun e => PatternEntry.mk e.1 e.2)

/-- The ordered hook rule table of classifyHook (src/app/page.tsx), in source order. -/
def hookRules : List (List Char × List Char) :=
  [(str "phế vật", str "Phế vật → nghịch thiên"),
   (str "ruồng bỏ", str "Bị ruồng bỏ → quay lại"),
   (str "quỳ xuống", str "Áp chế → quỳ xuống"),
   (str "chấn động", str "Đột phá → chấn động"),
   (str "xuyên không", str "Xuyên không"),
   (str "hệ thống", str "Hệ thống"),
   (str "trùng sinh", str "Trùng sinh")]

/-- The rule loop of classifyHook: first rule whose keyword is a substring of
the cleaned title wins; fallback "Khác". -/
def classifyHookGo (t : List Char) : List (List Char × List Char) → List Char
  | [] => str "Khác"
  | r :: rs => if jsIncludes t r.1 then r.2 else classifyHookGo t rs

/-- classifyHook from src/app/page.tsx. -/
def classifyHook (title : List Char) : List Char :=
  classifyHookGo (cleanTitle title) hookRules

/-- One day in milliseconds. -/
def dayMs : Int := 86400000

/-- Math.max(1, dayjs().diff(dayjs(publishedAt), "day")): age in whole days,
floored at 1; dayjs truncates the day difference toward zero, and
dayjs(undefined) is the current instant. -/
def ageDaysOf (now : Int) (publishedAt : Option Int) : Nat :=
  (max 1 ((now - publishedAt.getD now).tdiv dayMs)).toNat

/-- Math.round(a / b) for natural a and positive natural b
(JS Math.round rounds half toward positive infinity). -/
def roundDivNat (a b : Nat) : Nat := (2 * a + b) / (2 * b)

/-- Math.round(a / b) for integer a and positive natural b. -/
def roundDivInt (a : Int) (b : Nat) : Int := Int.fdiv (2 * a + (b : Int)) (2 * (b : Int))

/-- computeVelocity from src/app/page.tsx:
Math.round((views / Math.max(1, ageDays)) * Math.log10(likes + 10)),
modeled over the reals. -/
noncomputable def computeVelocity (views likes ageDays : Nat) : Int :=
  ⌊(views : ℝ) / ((max 1 ageDays : Nat) : ℝ) * Real.logb 10 ((likes : ℝ) + 10) + 1 / 2⌋

/-- Numeric value of a decimal digit character. -/
def digitVal (c : Char) : Nat := c.toNat - 48

/-- parseInt on a run of decimal digits. -/
def decVal (ds : List Char) : Nat := ds.foldl (fun acc c => acc * 10 + digitVal c) 0

/-- Scans for the first occurrence of the literal "PT" (the only mandatory part
of the duration regex) and returns the remainder after it; none when the
string contains no "PT", in which case the regex does not match at all. -/
def findPT : List Char → Option (List Char)
  | [] => none
  | [_] => none
  | c :: c2 :: rest =>
    if c = 'P' ∧ c2 = 'T' then some rest else findPT (c2 :: rest)

/-- One optional segment (?:(\d+)X)? of the duration regex: the greedy digit
run must be nonempty and immediately followed by the marker, otherwise the
group matches empty and consumes nothing. -/
def parseSeg (l : List Char) (marker : Char) : Option Nat × List Char :=
  let run := l.takeWhile Char.isDigit
  if !run.isEmpty && (l.drop run.length).head? = some marker then
    (some (decVal run), (l.drop run.length).drop 1)
  else (none, l)

/-- iso8601DurationToSeconds from the source: unanchored match of
PT(?:(\d+)H)?(?:(\d+)M)?(?:(\d+)S)? and h*3600 + m*60 + s with absent
groups read as 0; 0 when the regex does not match. Total, so it never throws. -/
def iso8601DurationToSeconds (d : List Char) : Nat :=
  match findPT d with
  | none => 0
  | some rest =>
    let p1 := parseSeg rest 'H'
    let p2 := parseSeg p1.2 'M'
    let p3 := parseSeg p2.2 'S'
    p1.1.getD 0 * 3600 + p2.1.getD 0 * 60 + p3.1.getD 0

/-- The character class [a-zA-Z0-9_-] of the channel-id regex. -/
def isIdChar (c : Char) : Bool :=
  (97 ≤ c.toNat && c.toNat ≤ 122) || (65 ≤ c.toNat && c.toNat ≤ 90) ||
  c.isDigit || c = '_' || c = '-'

/-- First match of /(UC[a-zA-Z0-9_-]{20,})/: scans start indices left to right;
an attempt succeeds when "UC" is followed by a greedy run of at least 20
id characters. -/
def findUC : List Char → Option (List Char)
  | [] => none
  | c :: rest =>
    if c = 'U' then
      match rest with
      | 'C' :: rest2 =>
        let run := rest2.takeWhile isIdChar
        if 20 ≤ run.length then some ('U' :: 'C' :: run) else findUC rest
      | _ => findUC rest
    else findUC rest

/-- Case-insensitive literal comparison for the /i flag. -/
def ciPrefixOf (pat l : List Char) : Bool :=
  (l.take pat.length).map jsToLower = pat

/-- First match of /youtube\.com\/@([^\/?]+)/i: after the literal, the capture
is the greedy nonempty run of characters other than slash and question mark;
an attempt with an empty run fails and scanning resumes at the next index. -/
def findYtHandle : List Char → Option (List Char)
  | [] => none
  | c :: rest =>
    if ciPrefixOf (str "youtube.com/@") (c :: rest) then
      let run := ((c :: rest).drop 13).takeWhile (fun ch => !(ch = '/' || ch = '?'))
      if 1 ≤ run.length then some run else findYtHandle rest
    else findYtHandle rest

/-- JS String.prototype.trim. -/
def jsTrim (l : List Char) : List Char :=
  ((l.dropWhile isWsChar).reverse.dropWhile isWsChar).reverse

/-- The two kinds of channel reference the parser produces. -/
inductive ChannelRefType
  | id
  | forHandle
deriving DecidableEq

/-- A parsed channel reference. -/
structure ChannelRef where
  type : ChannelRefType
  value : List Char
deriving DecidableEq

/-- parseChannelInput from src/app/page.tsx: channel id anywhere in the string,
else @handle inside a youtube.com URL, else the trimmed string as a handle
(the explicit startsWith("@") branch and the fallback branch of the source
return the same value, so they are merged here). -/
def parseChannelInput (input : List Char) : ChannelRef :=
  let s := jsTrim input
  match findUC s with
  | some idv => ChannelRef.mk ChannelRefType.id idv
  | none =>
    match findYtHandle s with
    | some h => ChannelRef.mk ChannelRefType.forHandle ('@' :: h)
    | none => ChannelRef.mk ChannelRefType.forHandle s

/-- The channel record produced by resolveChannel (src/app/page.tsx). -/
structure RChannel where
  channelId : List Char
  title : List Char
  uploadsPlaylistId : Option (List Char)
  subscribers : Nat
  totalViews : Nat
  videoCount : Nat
deriving DecidableEq

/-- One raw provider video item, reduced to the fields the route reads
(optional fields model the ?. accesses of the source). The publishedAt
timestamp is the parsed instant in milliseconds. -/
structure YTVideo where
  id : List Char
  title : Option (List Char)
  publishedAt : Option Int
  viewCount : Option Nat
  likeCount : Option Nat
  commentCount : Option Nat
  duration : Option (List Char)
deriving DecidableEq

/-- A VideoRecord row of the response. -/
structure VideoRow where
  channelId : List Char
  channelTitle : List Char
  videoId : List Char
  title : Option (List Char)
  publishedAt : Option Int
  durationSec : Nat
  views : Nat
  likes : Nat
  comments : Nat
  ageDays : Nat
  viewsPerDay : Nat
  velocity : Int
  hookTag : List Char
  url : List Char
deriving DecidableEq

/-- The row construction inside the map of the POST loop (src/app/page.tsx). -/
noncomputable def buildRow (ch : RChannel) (v : YTVideo) (now : Int) : VideoRow :=
  let views := v.viewCount.getD 0
  let likes := v.likeCount.getD 0
  let comments := v.commentCount.getD 0
  let durSec := iso8601DurationToSeconds (v.duration.getD (str "PT0S"))
  let ageDays := ageDaysOf now v.publishedAt
  { channelId := ch.channelId
    channelTitle := ch.title
    videoId := v.id
    title := v.title
    publishedAt := v.publishedAt
    durationSec := durSec
    views := views
    likes := likes
    comments := comments
    ageDays := ageDays
    viewsPerDay := roundDivNat views ageDays
    velocity := computeVelocity views likes ageDays
    hookTag := classifyHook (v.title.getD [])
    url := str "https://www.youtube.com/watch?v=" ++ v.id }

/-- The map-then-filter of the POST loop: build a row per provider item, keep
rows with a present publishedAt strictly after the cutoff now - days
(dayjs isAfter is strict). -/
noncomputable def buildRows (ch : RChannel) (videos : List YTVideo) (now : Int)
    (days : Nat) : List VideoRow :=
  (videos.map (fun v => buildRow ch v now)).filter
    (fun r => r.publishedAt.isSome && decide (now - (days : Int) * dayMs < r.publishedAt.getD 0))

/-- The per-channel cached bundle. -/
structure Bundle where
  ch : RChannel
  rows : List VideoRow
  patterns : List PatternEntry
  topByVelocity : List VideoRow
  topByVpd : List VideoRow
deriving DecidableEq

/-- Cache key: deterministic serialization of (parsed ref, days, maxVideos)
(JSON.stringify of that record is injective on it, so the key is modeled as
the record itself). -/
structure CacheKey where
  parsed : ChannelRef
  days : Nat
  maxVideos : Nat
deriving DecidableEq

/-- One stored cache entry with its insertion instant. -/
structure CacheEntry where
  key : CacheKey
  insertedAt : Int
  bundle : Bundle
deriving DecidableEq

/-- Cache TTL: 6 hours in milliseconds (1000 * 60 * 60 * 6 in the source). -/
def cacheTTL : Int := 21600000

/-- Cache capacity (max: 500 in the source). -/
def cacheMax : Nat := 500

/-- Modelled from the spec: the lru-cache dependency behind `new LRUCache({max:
500, ttl: 6h})` is not part of this repository, so its get is modeled from the
spec contract: a non-expired entry is returned verbatim and refreshed in the
recency order; an entry older than the TTL is dropped and the lookup misses.
The state list is kept most-recently-used first. -/
def cacheGet (c : List CacheEntry) (k : CacheKey) (now : Int) :
    Option Bundle × List CacheEntry :=
  match c.find? (fun e => decide (e.key = k)) with
  | none => (none, c)
  | some e =>
    if now < e.insertedAt + cacheTTL then
      (some e.bundle, e :: c.filter (fun e2 => !decide (e2.key = k)))
    else (none, c.filter (fun e2 => !decide (e2.key = k)))

/-- Modelled from the spec: lru-cache set stores the value under the key with a
fresh TTL, moves it to the most-recent position, and evicts the
least-recently-used entries beyond the capacity of 500. -/
def cacheSet (c : List CacheEntry) (k : CacheKey) (now : Int) (b : Bundle) :
    List CacheEntry :=
  (CacheEntry.mk k now b :: c.filter (fun e => !decide (e.key = k))).take cacheMax

/-- The upstream provider collaborator (YouTube Data API): channel resolution,
uploads-playlist listing and per-id video metadata, reduced to the
deterministic interface the route consumes. -/
structure Provider where
  channels : ChannelRef → Option RChannel
  playlist : List Char → List (List Char)
  videos : List Char → Option YTVideo

/-- The miss-path bundle construction of the POST loop: list up to maxVideos
ids from the uploads playlist, fetch their metadata, build and window-filter
the rows, and mine the per-channel patterns and top-20 lists. -/
noncomputable def mkBundle (P : Provider) (ch : RChannel) (pl : List Char) (now : Int)
    (days maxV : Nat) : Bundle :=
  let ids := (P.playlist pl).take maxV
  let videos := ids.filterMap P.videos
  let rows := buildRows ch videos now days
  { ch := ch
    rows := rows
    patterns := extractNgrams (rows.map (fun r => r.title.getD []))
    topByVelocity := (sortDescBy (fun r => r.velocity) rows).take 20
    topByVpd := (sortDescBy (fun r => (r.viewsPerDay : Int)) rows).take 20 }

/-- One iteration of the POST input loop (src/app/page.tsx lines 799-851):
cache lookup, on a miss resolve the channel, list up to maxVideos ids, fetch
their metadata, build and window-filter the rows, mine the per-channel
patterns and top lists, and store the bundle. The Nat component counts
upstream fetch pipelines run (0 on a cache hit, 1 on a miss); errors carry
the cache state reached so far. -/
noncomputable def fetchBundle (P : Provider) (now : Int) (days maxV : Nat)
    (c : List CacheEntry) (input : List Char) :
    Except (List Char × List CacheEntry) (Bundle × List CacheEntry × Nat) :=
  let parsed := parseChannelInput input
  let key := CacheKey.mk parsed days maxV
  match cacheGet c key now with
  | (some b, c1) => Except.ok (b, c1, 0)
  | (none, c1) =>
    match P.channels parsed with
    | none => Except.error (str "Không tìm thấy channel: " ++ parsed.value, c1)
    | some ch =>
      match ch.uploadsPlaylistId with
      | none =>
        Except.error (str "Channel " ++ ch.title ++ str " không có uploads playlist", c1)
      | some pl =>
        Except.ok (mkBundle P ch pl now days maxV,
          cacheSet c1 key now (mkBundle P ch pl now days maxV), 1)

/-- The sequential input loop of POST, accumulating channels and rows and
threading the cache; a failed channel aborts the whole request. -/
noncomputable def postLoop (P : Provider) (now : Int) (days maxV : Nat) :
    List (List Char) → List CacheEntry → List RChannel → List VideoRow →
    Except (List Char × List CacheEntry) (List RChannel × List VideoRow × List CacheEntry)
  | [], c, chs, rows => Except.ok (chs, rows, c)
  | inp :: rest, c, chs, rows =>
    match fetchBundle P now days maxV c inp with
    | Except.error e => Except.error e
    | Except.ok (b, c1, _) => postLoop P now days maxV rest c1 (chs ++ [b.ch]) (rows ++ b.rows)

/-- A hookMix entry of the channel summary. -/
structure HookMixEntry where
  tag : List Char
  count : Nat
deriving DecidableEq

/-- One ChannelSummary record. -/
structure ChannelSummary where
  channelId : List Char
  channelTitle : List Char
  videosInWindow : Nat
  avgDurationSec : Nat
  avgViewsPerDay : Nat
  avgVelocity : Int
  hookMix : List HookMixEntry
deriving DecidableEq

/-- The per-group summary construction of POST (src/app/page.tsx lines 861-877). -/
noncomputable def summarizeGroup (g : List Char × List VideoRow) : ChannelSummary :=
  let rows := g.2
  { channelId := g.1
    channelTitle :=
      match rows with
      | [] => g.1
      | r :: _ => if r.channelTitle = [] then g.1 else r.channelTitle
    videosInWindow := rows.length
    avgDurationSec := roundDivNat (rows.map (fun r => r.durationSec)).sum (max 1 rows.length)
    avgViewsPerDay := roundDivNat (rows.map (fun r => r.viewsPerDay)).sum (max 1 rows.length)
    avgVelocity := roundDivInt (rows.map (fun r => r.velocity)).sum (max 1 rows.length)
    hookMix :=
      ((sortDescBy (fun e => (e.2 : Int)) (rows.foldl (fun m r => bump m r.hookTag) [])).take 8).map
        (fun e => HookMixEntry.mk e.1 e.2) }

/-- One step of the byChannel grouping:
(byChannel.get(r.channelId) || []).push(r); byChannel.set(r.channelId, arr). -/
def pushRow (m : List (List Char × List VideoRow)) (r : VideoRow) :
    List (List Char × List VideoRow) :=
  jsMapSet m r.channelId ((alook m r.channelId).getD [] ++ [r])

/-- The byChannel grouping of POST: a JS Map from channelId to the pushed list
of that channel's rows, in insertion order. -/
def groupByChannel (rows : List VideoRow) : List (List Char × List VideoRow) :=
  rows.foldl pushRow []

/-- channelSummary of POST: summarize every group, then sort descending by
avgVelocity. -/
noncomputable def summarize (rows : List VideoRow) : List ChannelSummary :=
  sortDescBy (fun s => s.avgVelocity) ((groupByChannel rows).map summarizeGroup)

/-- The request body after zod validation. -/
structure AnalyzeRequest where
  inputs : List (List Char)
  days : Nat
  maxVideos : Nat

/-- The success response shape of the v2 route. -/
structure AnalyzeResponse where
  days : Nat
  maxVideos : Nat
  channels : List RChannel
  channelSummary : List ChannelSummary
  globalTopByVelocity : List VideoRow
  globalTopByViewsPerDay : List VideoRow
  globalPatterns : List PatternEntry
  rows : List VideoRow
deriving DecidableEq

/-- POST of the v2 route (src/app/page.tsx lines 786-897), from request
validation onward: run the sequential loop from the given cache state at the
request instant now, then aggregate. An error response carries only the
message (the thrown error aborts the request before any partial result is
serialized); the evolved module-global cache is returned alongside. -/
noncomputable def POST (P : Provider) (now : Int) (req : AnalyzeRequest)
    (c : List CacheEntry) : Except (List Char) AnalyzeResponse × List CacheEntry :=
  match postLoop P now req.days req.maxVideos req.inputs c [] [] with
  | Except.error (e, c1) => (Except.error e, c1)
  | Except.ok (chs, allRows, c1) =>
    (Except.ok
      { days := req.days
        maxVideos := req.maxVideos
        channels := chs
        channelSummary := summarize allRows
        globalTopByVelocity := (sortDescBy (fun r => r.velocity) allRows).take 20
        globalTopByViewsPerDay := (sortDescBy (fun r => (r.viewsPerDay : Int)) allRows).take 20
        globalPatterns := extractNgrams (allRows.map (fun r => r.title.getD []))
        rows := allRows }, c1)

/-! ### Specification-side definitions used by the theorems -/

/-- One optional digits-then-marker segment of a well-formed ISO-8601 time
duration (spec-side builder for PT[nH][nM][nS] strings). -/
def segOpt (o : Option (List Char)) (m : Char) : List Char :=
  match o with
  | none => []
  | some ds => ds ++ [m]

/-- A present duration segment must be a nonempty run of decimal digits. -/
def segOk (o : Option (List Char)) : Bool :=
  match o with
  | none => true
  | some ds => !ds.isEmpty && ds.all Char.isDigit

/-- Spec-side checker: the whole string is of the form PT[nH][nM][nS]
(any subset of the three segments present). -/
def isIsoDurationForm (d : List Char) : Bool :=
  match d with
  | 'P' :: 'T' :: rest =>
    (parseSeg (parseSeg (parseSeg rest 'H').2 'M').2 'S').2.isEmpty
  | _ => false


/-- Occurrence count in a list, via countP with decidable equality. -/
def countOcc {α : Type} [DecidableEq α] (a : α) (l : List α) : Nat :=
  l.countP (fun x => decide (x = a))

/-- Keys of a modeled JS map, in insertion order. -/
def keysOf {κ ν : Type} (m : List (κ × ν)) : List κ := m.map (fun e => e.1)

/-- Every token is nonempty and space-free (true of split results). -/
def goodTokens (w : List (List Char)) : Prop := ∀ x ∈ w, x ≠ [] ∧ ' ' ∉ x

/-- Number of occurrences of the token list toks as a window of w (spec-side
meaning of "occurrence count across a title set" for one title). -/
def occCount (w toks : List (List Char)) : Nat :=
  (List.range (w.length + 1 - toks.length)).countP
    (fun i => decide ((w.drop i).take toks.length = toks))

/-- Total occurrences of the token list across the whole title set. -/
def occTotal (titles : List (List Char)) (toks : List (List Char)) : Nat :=
  (titles.map (fun raw => occCount (wTokens raw) toks)).sum


/-- A provider input resolves to a channel that has an uploads playlist
(the two conditions under which the fetch path of the loop cannot throw
before building the bundle). -/
def resolvesOK (P : Provider) (inp : List Char) : Bool :=
  match P.channels (parseChannelInput inp) with
  | none => false
  | some ch => ch.uploadsPlaylistId.isSome

/-- Every cached entry was stored after a successful resolution of its key's
channel reference (true of every cache state the route can reach). -/
def cacheResolvable (P : Provider) (c : List CacheEntry) : Prop :=
  ∀ e ∈ c, (P.channels e.key.parsed).isSome = true

/-- The same provider with every video item lacking a publishedAt timestamp
removed from the metadata listing. -/
def dropNoTimestamp (P : Provider) : Provider :=
  { channels := P.channels
    playlist := P.playlist
    videos := fun id =>
      match P.videos id with
      | none => none
      | some v => if v.publishedAt.isSome then some v else none }

/-- The window bound every record of a response satisfies (amended C1): its
timestamp is strictly inside the days-window of the instant tf at which its
bundle was fetched, and tf is at most one cache TTL before the request
instant (tf equals the request instant when the bundle is fetched fresh). -/
def rowWindowBound (now : Int) (days : Nat) (r : VideoRow) : Prop :=
  ∃ p tf : Int, r.publishedAt = some p ∧ now - cacheTTL < tf ∧ tf ≤ now ∧
    tf - (days : Int) * dayMs < p

/-- Cache well-formedness at the instant now: every entry was inserted no
later than now, and every row of its bundle was window-filtered, at the
insertion instant, against the days parameter recorded in its key. -/
def cacheWF (now : Int) (c : List CacheEntry) : Prop :=
  ∀ e ∈ c, e.insertedAt ≤ now ∧
    ∀ r ∈ e.bundle.rows, ∃ p : Int, r.publishedAt = some p ∧
      e.insertedAt - (e.key.days : Int) * dayMs < p


/-- A concrete channel record used by the closed witnesses. -/
def chW : RChannel :=
  RChannel.mk (str "UCW0000000000000000000000") (str "Kênh W") (some (str "PLW")) 10 100 5

/-- A concrete empty bundle used by the cache witnesses. -/
def bundleW : Bundle := Bundle.mk chW [] [] [] []

/-- The cache key of the handle input "@a" with days = 7 and maxVideos = 80. -/
def keyW : CacheKey :=
  CacheKey.mk (ChannelRef.mk ChannelRefType.forHandle (str "@a")) 7 80

/-- A cache entry for keyW inserted at instant 0. -/
def entryW : CacheEntry := CacheEntry.mk keyW 0 bundleW

/-- A concrete provider resolving only "@a", with an empty uploads playlist. -/
def provW : Provider :=
  Provider.mk
    (fun r => if r = ChannelRef.mk ChannelRefType.forHandle (str "@a") then some chW else none)
    (fun _ => [])
    (fun _ => none)

/-- A provider item with no publishedAt timestamp. -/
def vNoTs : YTVideo :=
  YTVideo.mk (str "v0") (some (str "t0")) none (some 5) (some 1) (some 0) none

/-- A provider item published inside the 7-day window of instant 10^12. -/
def vTs : YTVideo :=
  YTVideo.mk (str "v1") (some (str "t1")) (some 999999999999) (some 7) (some 2) (some 1)
    (some (str "PT1M"))

/-- A provider item published one millisecond inside the 7-day window of
instant 1700000000000. -/
def vidC1 : YTVideo :=
  YTVideo.mk (str "v1") (some (str "video một")) (some 1699395200001)
    (some 70) (some 0) (some 0) (some (str "PT1M"))

/-- A provider resolving "@a" to chW with a one-video uploads playlist. -/
def provC1 : Provider :=
  Provider.mk
    (fun r => if r = ChannelRef.mk ChannelRefType.forHandle (str "@a") then some chW else none)
    (fun _ => [str "v1"])
    (fun id => if id = str "v1" then some vidC1 else none)

/-- The request of the window counterexample. -/
def reqC1 : AnalyzeRequest := AnalyzeRequest.mk [str "@a"] 7 80

/-- The row built from vidC1 at the first request instant. -/
noncomputable def rowC1 : VideoRow := buildRow chW vidC1 1700000000000

/-- The bundle cached by the first request of the window counterexample. -/
noncomputable def bundleC1 : Bundle := mkBundle provC1 chW (str "PLW") 1700000000000 7 80

/-- The response of the second, cache-served request of the counterexample. -/
noncomputable def outC1 : AnalyzeResponse :=
  AnalyzeResponse.mk 7 80 ([] ++ [bundleC1.ch])
    (summarize ([] ++ bundleC1.rows))
    ((sortDescBy (fun r : VideoRow => r.velocity) ([] ++ bundleC1.rows)).take 20)
    ((sortDescBy (fun r : VideoRow => (r.viewsPerDay : Int)) ([] ++ bundleC1.rows)).take 20)
    (extractNgrams (([] ++ bundleC1.rows).map (fun r : VideoRow => r.title.getD [])))
    ([] ++ bundleC1.rows)

/-- The response of the witness request against provW. -/
def outW1 : AnalyzeResponse := AnalyzeResponse.mk 7 80 [chW] [] [] [] [] []

/-- The cache state left by the witness request. -/
def cW1 : List CacheEntry := [CacheEntry.mk keyW 1000 bundleW]


/-! ### Theorems -/

theorem takeWhile_digits_append (ds : List Char) (c : Char) (t : List Char)
    (hds : ds.all Char.isDigit = true) (hc : c.isDigit = false) :
    (ds ++ c :: t).takeWhile Char.isDigit = ds := by
  induction ds with
  | nil => simp [List.takeWhile, hc]
  | cons a as ih =>
    simp only [List.all_cons, Bool.and_eq_true] at hds
    simp [List.takeWhile, hds.1, ih hds.2]

theorem parseSeg_hit (ds : List Char) (m : Char) (t : List Char)
    (h1 : ds ≠ []) (h2 : ds.all Char.isDigit = true) (hm : m.isDigit = false) :
    parseSeg (ds ++ m :: t) m = (some (decVal ds), t) := by
  unfold parseSeg
  rw [takeWhile_digits_append ds m t h2 hm]
  have hdrop : (ds ++ m :: t).drop ds.length = m :: t := List.drop_left ds (m :: t)
  simp [hdrop, h1]

theorem parseSeg_mismatch (ds : List Char) (m2 m : Char) (t : List Char)
    (h2 : ds.all Char.isDigit = true) (hm2 : m2.isDigit = false) (hne : m2 ≠ m) :
    parseSeg (ds ++ m2 :: t) m = (none, ds ++ m2 :: t) := by
  unfold parseSeg
  rw [takeWhile_digits_append ds m2 t h2 hm2]
  have hdrop : (ds ++ m2 :: t).drop ds.length = m2 :: t := List.drop_left ds (m2 :: t)
  simp [hdrop, hne]

theorem parseSeg_nil (m : Char) : parseSeg [] m = (none, []) := by
  simp [parseSeg]

theorem findPT_of_no_pt : ∀ d : List Char, jsIncludes d (str "PT") = false → findPT d = none
  | [], _ => rfl
  | [_], _ => rfl
  | c :: c2 :: t, h => by
    unfold jsIncludes at h
    simp only [Bool.or_eq_false_iff] at h
    obtain ⟨hpre, hrest⟩ := h
    have ih := findPT_of_no_pt (c2 :: t) hrest
    unfold findPT
    by_cases hct : c = 'P' ∧ c2 = 'T'
    · obtain ⟨rfl, rfl⟩ := hct
      simp [str, List.isPrefixOf] at hpre
    · simp [hct, ih]

/-- C7 (amended): a string of the form PT[nH][nM][nS] (any subset of segments
present, here built from optional digit runs) normalizes to
H*3600 + M*60 + S seconds, and a string containing no occurrence of "PT"
normalizes to 0; the normalizer is a total function, so it never throws.
(The original claim that every string not of that form yields 0 is refuted by
the counterexample theorem: the regex is unanchored, so a malformed string
that still contains "PT" is parsed from its first "PT" occurrence.) -/
theorem iso8601Duration_spec (oh om os : Option (List Char)) (d : List Char)
    (h1 : segOk oh = true) (h2 : segOk om = true) (h3 : segOk os = true)
    (hnopt : jsIncludes d (str "PT") = false) :
    iso8601DurationToSeconds
        ('P' :: 'T' :: (segOpt oh 'H' ++ (segOpt om 'M' ++ segOpt os 'S')))
      = (oh.map decVal).getD 0 * 3600 + (om.map decVal).getD 0 * 60 +
          (os.map decVal).getD 0
    ∧ iso8601DurationToSeconds d = 0 := by
  constructor
  · have hfind : findPT ('P' :: 'T' :: (segOpt oh 'H' ++ (segOpt om 'M' ++ segOpt os 'S')))
        = some (segOpt oh 'H' ++ (segOpt om 'M' ++ segOpt os 'S')) := by
      simp [findPT]
    unfold iso8601DurationToSeconds
    rw [hfind]
    rcases oh with _ | hds <;> rcases om with _ | mds <;> rcases os with _ | sds <;>
      simp only [segOk, Bool.and_eq_true, Bool.not_eq_true', List.isEmpty_eq_false]
        at h1 h2 h3 ⊢
    · simp [segOpt, parseSeg_nil]
    · obtain ⟨hne3, hd3⟩ := h3
      simp only [segOpt, List.nil_append, List.singleton_append]
      rw [parseSeg_mismatch sds 'S' 'H' [] hd3 (by decide) (by decide)]
      simp only []
      rw [parseSeg_mismatch sds 'S' 'M' [] hd3 (by decide) (by decide)]
      simp only []
      rw [parseSeg_hit sds 'S' [] hne3 hd3 (by decide)]
      simp
    · obtain ⟨hne2, hd2⟩ := h2
      simp only [segOpt, List.nil_append, List.append_nil, List.singleton_append]
      rw [parseSeg_mismatch mds 'M' 'H' [] hd2 (by decide) (by decide)]
      simp only []
      rw [parseSeg_hit mds 'M' [] hne2 hd2 (by decide)]
      simp [parseSeg_nil]
    · obtain ⟨hne2, hd2⟩ := h2
      obtain ⟨hne3, hd3⟩ := h3
      simp only [segOpt, List.nil_append, List.append_assoc, List.singleton_append]
      rw [parseSeg_mismatch mds 'M' 'H' _ hd2 (by decide) (by decide)]
      simp only []
      rw [parseSeg_hit mds 'M' _ hne2 hd2 (by decide)]
      simp only []
      rw [parseSeg_hit sds 'S' [] hne3 hd3 (by decide)]
      simp
    · obtain ⟨hne1, hd1⟩ := h1
      simp only [segOpt, List.append_nil, List.singleton_append]
      rw [parseSeg_hit hds 'H' [] hne1 hd1 (by decide)]
      simp [parseSeg_nil]
    · obtain ⟨hne1, hd1⟩ := h1
      obtain ⟨hne3, hd3⟩ := h3
      simp only [segOpt, List.nil_append, List.append_assoc, List.singleton_append]
      rw [parseSeg_hit hds 'H' _ hne1 hd1 (by decide)]
      simp only []
      rw [parseSeg_mismatch sds 'S' 'M' [] hd3 (by decide) (by decide)]
      simp only []
      rw [parseSeg_hit sds 'S' [] hne3 hd3 (by decide)]
      simp
    · obtain ⟨hne1, hd1⟩ := h1
      obtain ⟨hne2, hd2⟩ := h2
      simp only [segOpt, List.append_nil, List.append_assoc, List.singleton_append]
      rw [parseSeg_hit hds 'H' _ hne1 hd1 (by decide)]
      simp only []
      rw [parseSeg_hit mds 'M' [] hne2 hd2 (by decide)]
      simp [parseSeg_nil]
    · obtain ⟨hne1, hd1⟩ := h1
      obtain ⟨hne2, hd2⟩ := h2
      obtain ⟨hne3, hd3⟩ := h3
      simp only [segOpt, List.append_assoc, List.singleton_append]
      rw [parseSeg_hit hds 'H' _ hne1 hd1 (by decide)]
      simp only []
      rw [parseSeg_hit mds 'M' _ hne2 hd2 (by decide)]
      simp only []
      rw [parseSeg_hit sds 'S' [] hne3 hd3 (by decide)]
      simp
  · unfold iso8601DurationToSeconds
    rw [findPT_of_no_pt d hnopt]

theorem iso8601Duration_spec_witness :
    iso8601DurationToSeconds (str "PT1H2M") = 3720 ∧
      iso8601DurationToSeconds (str "abc") = 0 := by
  have h := iso8601Duration_spec (some (str "1")) (some (str "2")) none (str "abc")
    (by decide) (by decide) (by decide) (by decide)
  exact ⟨h.1, h.2⟩

/-- C7 counterexample: "xPT1M" is not of the form PT[nH][nM][nS], yet the
normalizer returns 60, not 0, because the regex is unanchored and matches the
embedded "PT1M". -/
theorem iso8601Duration_counterexample :
    isIsoDurationForm (str "xPT1M") = false ∧
      iso8601DurationToSeconds (str "xPT1M") = 60 ∧ (60 : Nat) ≠ 0 := by
  refine ⟨by decide, by decide, by decide⟩

/-- C6: velocity is monotonically non-decreasing in views for fixed likes and
ageDays, and monotonically non-decreasing in likes for fixed views and
ageDays, for all non-negative integer inputs with ageDays ≥ 1 (the arithmetic
of Math.log10 and Math.round is modeled over ℝ). -/
theorem computeVelocity_monotone (views views2 likes likes2 ageDays : Nat)
    (_hage : 1 ≤ ageDays) :
    (views ≤ views2 →
      computeVelocity views likes ageDays ≤ computeVelocity views2 likes ageDays)
    ∧ (likes ≤ likes2 →
      computeVelocity views likes ageDays ≤ computeVelocity views likes2 ageDays) := by
  have ha : (0 : ℝ) < ((max 1 ageDays : Nat) : ℝ) := by
    have h1 : 1 ≤ max 1 ageDays := le_max_left 1 ageDays
    exact_mod_cast Nat.lt_of_lt_of_le Nat.zero_lt_one h1
  have hlogpos : ∀ k : Nat, (0 : ℝ) ≤ Real.logb 10 ((k : ℝ) + 10) := by
    intro k
    apply Real.logb_nonneg (by norm_num)
    have : (0 : ℝ) ≤ (k : ℝ) := Nat.cast_nonneg k
    linarith
  constructor
  · intro hv
    unfold computeVelocity
    apply Int.floor_mono
    have h1 : (views : ℝ) / ((max 1 ageDays : Nat) : ℝ)
        ≤ (views2 : ℝ) / ((max 1 ageDays : Nat) : ℝ) :=
      (div_le_div_iff_of_pos_right ha).mpr (by exact_mod_cast hv)
    have := mul_le_mul_of_nonneg_right h1 (hlogpos likes)
    linarith
  · intro hl
    unfold computeVelocity
    apply Int.floor_mono
    have hvnn : (0 : ℝ) ≤ (views : ℝ) / ((max 1 ageDays : Nat) : ℝ) :=
      div_nonneg (Nat.cast_nonneg views) (le_of_lt ha)
    have hlog : Real.logb 10 ((likes : ℝ) + 10) ≤ Real.logb 10 ((likes2 : ℝ) + 10) := by
      apply Real.logb_le_logb_of_le (by norm_num)
      · have : (0 : ℝ) ≤ (likes : ℝ) := Nat.cast_nonneg likes
        linarith
      · have : (likes : ℝ) ≤ (likes2 : ℝ) := by exact_mod_cast hl
        linarith
    have := mul_le_mul_of_nonneg_left hlog hvnn
    linarith

theorem computeVelocity_monotone_witness :
    computeVelocity 5 3 2 ≤ computeVelocity 7 3 2 ∧
      computeVelocity 5 3 2 ≤ computeVelocity 5 9 2 :=
  ⟨(computeVelocity_monotone 5 7 3 9 2 (by decide)).1 (by decide),
   (computeVelocity_monotone 5 7 3 9 2 (by decide)).2 (by decide)⟩

theorem classifyHookGo_eq_find (t : List Char) (rs : List (List Char × List Char)) :
    classifyHookGo t rs =
      ((rs.find? (fun r => jsIncludes t r.1)).map (fun r => r.2)).getD (str "Khác") := by
  induction rs with
  | nil => rfl
  | cons r rs ih =>
    cases hjs : jsIncludes t r.1 <;> simp [classifyHookGo, List.find?, hjs, ih]

theorem classifyHookGo_first (t : List Char) :
    ∀ rs : List (List Char × List Char), ∀ i : Nat, ∀ hi : i < rs.length,
    jsIncludes t (rs.get ⟨i, hi⟩).1 = true →
    ∃ i2 : Nat, ∃ hi2 : i2 < rs.length, i2 ≤ i ∧
      jsIncludes t (rs.get ⟨i2, hi2⟩).1 = true ∧
      classifyHookGo t rs = (rs.get ⟨i2, hi2⟩).2
  | [], i, hi, _ => absurd hi (by simp)
  | r :: rs, i, hi, hmatch => by
    cases hjs : jsIncludes t r.1
    · cases i with
      | zero =>
        simp only [List.get] at hmatch
        rw [hjs] at hmatch
        exact absurd hmatch (by simp)
      | succ i0 =>
        have hi0 : i0 < rs.length := by
          simpa [Nat.succ_lt_succ_iff] using hi
        have hmatch0 : jsIncludes t (rs.get ⟨i0, hi0⟩).1 = true := by
          simpa [List.get] using hmatch
        obtain ⟨i2, hi2, hle, hjs2, heq⟩ := classifyHookGo_first t rs i0 hi0 hmatch0
        refine ⟨i2 + 1, by simpa [Nat.succ_lt_succ_iff] using hi2, by omega, ?_, ?_⟩
        · simpa [List.get] using hjs2
        · simpa [classifyHookGo, hjs, List.get] using heq
    · exact ⟨0, by simp, Nat.zero_le i, by simpa [List.get] using hjs,
        by simp [classifyHookGo, hjs, List.get]⟩

/-- C3: hook classification tests the fixed ordered rule table and returns the
tag of the first rule whose keyword is a substring of the cleaned title: the
result equals the find?-characterization; when the cleaned title contains the
keywords of two distinct rules the returned tag is that of a rule no later
than the earlier one (the first match); and when no keyword occurs the result
is "Khác". -/
theorem classifyHook_ordered_rules (title : List Char) :
    (classifyHook title =
      ((hookRules.find? (fun r => jsIncludes (cleanTitle title) r.1)).map
        (fun r => r.2)).getD (str "Khác"))
    ∧ (∀ i j : Nat, ∀ hi : i < hookRules.length, ∀ hj : j < hookRules.length, i < j →
        jsIncludes (cleanTitle title) (hookRules.get ⟨i, hi⟩).1 = true →
        jsIncludes (cleanTitle title) (hookRules.get ⟨j, hj⟩).1 = true →
        ∃ i2 : Nat, ∃ hi2 : i2 < hookRules.length, i2 ≤ i ∧
          jsIncludes (cleanTitle title) (hookRules.get ⟨i2, hi2⟩).1 = true ∧
          classifyHook title = (hookRules.get ⟨i2, hi2⟩).2)
    ∧ ((∀ r ∈ hookRules, jsIncludes (cleanTitle title) r.1 = false) →
        classifyHook title = str "Khác") := by
  refine ⟨classifyHookGo_eq_find (cleanTitle title) hookRules, ?_, ?_⟩
  · intro i j hi hj _ hmi _
    exact classifyHookGo_first (cleanTitle title) hookRules i hi hmi
  · intro hnone
    show classifyHookGo (cleanTitle title) hookRules = str "Khác"
    rw [classifyHookGo_eq_find]
    rw [List.find?_eq_none.mpr (fun r hr => by simp [hnone r hr])]
    rfl

theorem classifyHook_ordered_rules_witness :
    ∃ i2 : Nat, ∃ hi2 : i2 < hookRules.length, i2 ≤ 0 ∧
      jsIncludes (cleanTitle (str "truyện PHẾ VẬT xuyên không tập 1"))
        (hookRules.get ⟨i2, hi2⟩).1 = true ∧
      classifyHook (str "truyện PHẾ VẬT xuyên không tập 1") =
        (hookRules.get ⟨i2, hi2⟩).2 :=
  (classifyHook_ordered_rules (str "truyện PHẾ VẬT xuyên không tập 1")).2.1
    0 4 (by decide) (by decide) (by decide) (by decide) (by decide)

theorem splitSp_ne_nil (l : List Char) : splitSp l ≠ [] := by
  cases l with
  | nil => simp [splitSp]
  | cons c rest =>
    unfold splitSp
    by_cases hc : c = ' '
    · simp [hc]
    · simp only [hc, if_false]
      cases splitSp rest <;> simp

theorem splitSp_no_space (l : List Char) : ∀ x ∈ splitSp l, ' ' ∉ x := by
  induction l with
  | nil => intro x hx; simp [splitSp] at hx; simp [hx]
  | cons c rest ih =>
    intro x hx
    unfold splitSp at hx
    by_cases hc : c = ' '
    · simp only [hc, if_pos rfl] at hx
      rcases List.mem_cons.mp hx with h | h
      · simp [h]
      · exact ih x h
    · simp only [hc, if_false] at hx
      cases hsp : splitSp rest with
      | nil => exact absurd hsp (splitSp_ne_nil rest)
      | cons g gs =>
        rw [hsp] at hx
        rcases List.mem_cons.mp hx with h | h
        · subst h
          intro hmem
          rcases List.mem_cons.mp hmem with h2 | h2
          · exact hc h2.symm
          · exact ih g (hsp ▸ List.mem_cons_self g gs) h2
        · exact ih x (hsp ▸ List.mem_cons_of_mem g h)

theorem splitSp_cons_ne (c : Char) (rest : List Char) (hc : c ≠ ' ')
    (g : List Char) (gs : List (List Char)) (h : splitSp rest = g :: gs) :
    splitSp (c :: rest) = (c :: g) :: gs := by
  unfold splitSp
  rw [if_neg hc, h]

theorem splitSp_of_no_space (a : List Char) (ha : ' ' ∉ a) : splitSp a = [a] := by
  induction a with
  | nil => rfl
  | cons c rest ih =>
    have hc : c ≠ ' ' := fun h => ha (h ▸ List.mem_cons_self c rest)
    have hrest : ' ' ∉ rest := fun h => ha (List.mem_cons_of_mem c h)
    rw [splitSp_cons_ne c rest hc rest [] (ih hrest)]

theorem splitSp_append_space (a b : List Char) (ha : ' ' ∉ a) :
    splitSp (a ++ ' ' :: b) = a :: splitSp b := by
  induction a with
  | nil => simp [splitSp]
  | cons c rest ih =>
    have hc : c ≠ ' ' := fun h => ha (h ▸ List.mem_cons_self c rest)
    have hrest : ' ' ∉ rest := fun h => ha (List.mem_cons_of_mem c h)
    rw [List.cons_append]
    rw [splitSp_cons_ne c _ hc rest (splitSp b) (ih hrest)]

theorem joinSp_cons (w : List Char) (ws : List (List Char)) (h : ws ≠ []) :
    joinSp (w :: ws) = w ++ ' ' :: joinSp ws := by
  cases ws with
  | nil => exact absurd rfl h
  | cons w2 ws2 => rfl

theorem splitSp_joinSp : ∀ ts : List (List Char), ts ≠ [] →
    (∀ x ∈ ts, x ≠ [] ∧ ' ' ∉ x) → splitSp (joinSp ts) = ts
  | [], h, _ => absurd rfl h
  | [w], _, hx => by
    simp only [joinSp]
    exact splitSp_of_no_space w (hx w (by simp)).2
  | w :: w2 :: ts, _, hx => by
    rw [joinSp_cons w (w2 :: ts) (by simp)]
    rw [splitSp_append_space w (joinSp (w2 :: ts)) (hx w (by simp)).2]
    rw [splitSp_joinSp (w2 :: ts) (by simp)
      (fun x hmem => hx x (List.mem_cons_of_mem w hmem))]

theorem alook_nil {κ ν : Type} [DecidableEq κ] (k : κ) :
    alook ([] : List (κ × ν)) k = none := rfl

theorem alook_cons {κ ν : Type} [DecidableEq κ] (e : κ × ν) (rest : List (κ × ν)) (k : κ) :
    alook (e :: rest) k = if e.1 = k then some e.2 else alook rest k := rfl

theorem alook_jsMapSet_self {κ ν : Type} [DecidableEq κ] (m : List (κ × ν)) (k : κ) (v : ν) :
    alook (jsMapSet m k v) k = some v := by
  unfold jsMapSet
  by_cases hp : (alook m k).isSome
  · rw [if_pos hp]
    induction m with
    | nil => simp [alook_nil] at hp
    | cons e rest ih =>
      rw [alook_cons] at hp
      by_cases he : e.1 = k
      · simp [alook_cons, he]
      · rw [if_neg he] at hp
        simp only [List.map_cons, if_neg he]
        rw [alook_cons, if_neg he]
        exact ih hp
  · rw [if_neg hp]
    induction m with
    | nil => simp [alook_cons, alook_nil]
    | cons e rest ih =>
      rw [alook_cons] at hp
      by_cases he : e.1 = k
      · rw [if_pos he] at hp
        simp at hp
      · rw [if_neg he] at hp
        simp only [List.cons_append]
        rw [alook_cons, if_neg he]
        exact ih hp

theorem alook_jsMapSet_other {κ ν : Type} [DecidableEq κ] (m : List (κ × ν)) (k k2 : κ)
    (v : ν) (hne : k2 ≠ k) : alook (jsMapSet m k v) k2 = alook m k2 := by
  unfold jsMapSet
  by_cases hp : (alook m k).isSome
  · rw [if_pos hp]
    clear hp
    induction m with
    | nil => simp
    | cons e rest ih =>
      by_cases he : e.1 = k
      · have he2 : e.1 ≠ k2 := by rw [he]; exact fun h => hne h.symm
        simp only [List.map_cons, if_pos he]
        rw [alook_cons, alook_cons, if_neg (fun h => hne h.symm), if_neg he2]
        exact ih
      · simp only [List.map_cons, if_neg he]
        rw [alook_cons, alook_cons]
        by_cases he2 : e.1 = k2
        · rw [if_pos he2, if_pos he2]
        · rw [if_neg he2, if_neg he2]
          exact ih
  · rw [if_neg hp]
    clear hp
    induction m with
    | nil =>
      simp only [List.nil_append, alook_cons, alook_nil]
      rw [if_neg (fun h => hne (Eq.symm h))]
    | cons e rest ih =>
      simp only [List.cons_append]
      rw [alook_cons, alook_cons]
      by_cases he2 : e.1 = k2
      · rw [if_pos he2, if_pos he2]
      · rw [if_neg he2, if_neg he2]
        exact ih

theorem countOcc_nil {α : Type} [DecidableEq α] (a : α) : countOcc a [] = 0 := rfl

theorem countOcc_cons {α : Type} [DecidableEq α] (a b : α) (l : List α) :
    countOcc a (b :: l) = countOcc a l + (if b = a then 1 else 0) := by
  unfold countOcc
  rw [List.countP_cons]
  by_cases h : b = a <;> simp [h]

theorem countOcc_append {α : Type} [DecidableEq α] (a : α) (l1 l2 : List α) :
    countOcc a (l1 ++ l2) = countOcc a l1 + countOcc a l2 := by
  unfold countOcc
  rw [List.countP_append]

theorem alookD_foldl_bump {κ : Type} [DecidableEq κ] :
    ∀ (l : List κ) (m : List (κ × Nat)) (k : κ),
    (alook (l.foldl bump m) k).getD 0 = (alook m k).getD 0 + countOcc k l
  | [], m, k => by simp [countOcc_nil]
  | k0 :: l, m, k => by
    rw [List.foldl_cons, alookD_foldl_bump l (bump m k0) k, countOcc_cons]
    unfold bump
    by_cases he : k = k0
    · subst he
      rw [alook_jsMapSet_self, if_pos rfl]
      simp only [Option.getD_some]
      omega
    · rw [alook_jsMapSet_other _ _ _ _ he, if_neg (fun h => he (Eq.symm h))]
      omega

theorem mem_keys_jsMapSet {κ ν : Type} [DecidableEq κ] (m : List (κ × ν)) (k k2 : κ) (v : ν)
    (h : k2 ∈ keysOf (jsMapSet m k v)) : k2 ∈ keysOf m ∨ k2 = k := by
  unfold jsMapSet at h
  by_cases hp : (alook m k).isSome
  · rw [if_pos hp] at h
    unfold keysOf at h ⊢
    rw [List.map_map] at h
    obtain ⟨e, he, heq⟩ := List.mem_map.mp h
    by_cases h1 : e.1 = k
    · right
      simp only [Function.comp, if_pos h1] at heq
      exact heq ▸ rfl
    · left
      simp only [Function.comp, if_neg h1] at heq
      exact List.mem_map.mpr ⟨e, he, heq⟩
  · rw [if_neg hp] at h
    unfold keysOf at h ⊢
    rw [List.map_append] at h
    rcases List.mem_append.mp h with h1 | h1
    · exact Or.inl h1
    · simp at h1
      exact Or.inr h1

theorem alook_eq_none_iff {κ ν : Type} [DecidableEq κ] (m : List (κ × ν)) (k : κ) :
    alook m k = none ↔ k ∉ keysOf m := by
  induction m with
  | nil => simp [alook_nil, keysOf]
  | cons e rest ih =>
    rw [alook_cons]
    by_cases he : e.1 = k
    · simp [keysOf, he]
    · simp only [if_neg he, ih, keysOf, List.map_cons, List.mem_cons]
      constructor
      · intro h hmem
        rcases hmem with h2 | h2
        · exact he h2.symm
        · exact h h2
      · intro h h2
        exact h (Or.inr h2)

theorem keysOf_jsMapSet_of_mem {κ ν : Type} [DecidableEq κ] (m : List (κ × ν)) (k : κ) (v : ν)
    (hp : (alook m k).isSome) : keysOf (jsMapSet m k v) = keysOf m := by
  unfold jsMapSet
  rw [if_pos hp]
  unfold keysOf
  rw [List.map_map]
  apply List.map_congr_left
  intro e _
  by_cases h1 : e.1 = k
  · simp [Function.comp, if_pos h1, h1]
  · simp [Function.comp, if_neg h1]

theorem nodup_keys_jsMapSet {κ ν : Type} [DecidableEq κ] (m : List (κ × ν)) (k : κ) (v : ν)
    (h : (keysOf m).Nodup) : (keysOf (jsMapSet m k v)).Nodup := by
  by_cases hp : (alook m k).isSome
  · rw [keysOf_jsMapSet_of_mem m k v hp]
    exact h
  · unfold jsMapSet
    rw [if_neg hp]
    unfold keysOf
    rw [List.map_append]
    simp only [List.map_cons, List.map_nil]
    rw [List.nodup_append]
    refine ⟨h, List.nodup_singleton k, ?_⟩
    intro a ha hb
    simp at hb
    subst hb
    rw [Option.not_isSome_iff_eq_none] at hp
    exact (alook_eq_none_iff m a).mp hp ha

theorem alook_of_mem_nodup {κ ν : Type} [DecidableEq κ] :
    ∀ (m : List (κ × ν)) (k : κ) (v : ν), (keysOf m).Nodup → (k, v) ∈ m →
    alook m k = some v
  | [], k, v, _, hmem => absurd hmem (by simp)
  | e :: rest, k, v, hnd, hmem => by
    rw [alook_cons]
    unfold keysOf at hnd
    rw [List.map_cons, List.nodup_cons] at hnd
    rcases List.mem_cons.mp hmem with h1 | h1
    · rw [← h1]
      simp
    · by_cases he : e.1 = k
      · exfalso
        apply hnd.1
        rw [he]
        exact List.mem_map.mpr ⟨(k, v), h1, rfl⟩
      · rw [if_neg he]
        exact alook_of_mem_nodup rest k v hnd.2 h1

theorem mem_keys_foldl_bump {κ : Type} [DecidableEq κ] :
    ∀ (l : List κ) (m : List (κ × Nat)) (k : κ),
    k ∈ keysOf (l.foldl bump m) → k ∈ keysOf m ∨ k ∈ l
  | [], m, k, h => Or.inl h
  | k0 :: l, m, k, h => by
    rw [List.foldl_cons] at h
    rcases mem_keys_foldl_bump l (bump m k0) k h with h1 | h1
    · rcases mem_keys_jsMapSet m k0 k _ h1 with h2 | h2
      · exact Or.inl h2
      · exact Or.inr (h2 ▸ List.mem_cons_self k0 l)
    · exact Or.inr (List.mem_cons_of_mem k0 h1)

theorem nodup_keys_foldl_bump {κ : Type} [DecidableEq κ] :
    ∀ (l : List κ) (m : List (κ × Nat)), (keysOf m).Nodup →
    (keysOf (l.foldl bump m)).Nodup
  | [], _, h => h
  | k0 :: l, m, h => by
    rw [List.foldl_cons]
    exact nodup_keys_foldl_bump l (bump m k0) (nodup_keys_jsMapSet m k0 _ h)

theorem mem_foldl_bump_eq_count {κ : Type} [DecidableEq κ] (l : List κ) (k : κ) (v : Nat)
    (h : (k, v) ∈ l.foldl bump []) : k ∈ l ∧ v = countOcc k l := by
  have hk : k ∈ keysOf (l.foldl bump []) := List.mem_map.mpr ⟨(k, v), h, rfl⟩
  have hmem : k ∈ l := by
    rcases mem_keys_foldl_bump l [] k hk with h1 | h1
    · simp [keysOf] at h1
    · exact h1
  have hnd : (keysOf (l.foldl bump [])).Nodup :=
    nodup_keys_foldl_bump l [] (by simp [keysOf])
  have halook := alook_of_mem_nodup (l.foldl bump []) k v hnd h
  have hcount := alookD_foldl_bump l [] k
  rw [halook] at hcount
  simp [alook_nil] at hcount
  exact ⟨hmem, hcount⟩

theorem mem_insertDescBy {α : Type} (key : α → Int) (x a : α) :
    ∀ l : List α, a ∈ insertDescBy key x l ↔ a = x ∨ a ∈ l
  | [] => by simp [insertDescBy]
  | y :: ys => by
    unfold insertDescBy
    by_cases h : key x < key y
    · rw [if_pos h]
      rw [List.mem_cons, mem_insertDescBy key x a ys, List.mem_cons]
      tauto
    · rw [if_neg h]
      exact List.mem_cons

theorem mem_sortDescBy {α : Type} (key : α → Int) (a : α) :
    ∀ l : List α, a ∈ sortDescBy key l ↔ a ∈ l
  | [] => Iff.rfl
  | x :: xs => by
    unfold sortDescBy
    rw [mem_insertDescBy, mem_sortDescBy key a xs, List.mem_cons]

theorem count_filterMap_eq_countP {α β : Type} [DecidableEq β] (f : α → Option β) (b : β) :
    ∀ l : List α, countOcc b (l.filterMap f) = l.countP (fun a => decide (f a = some b))
  | [] => rfl
  | a :: l => by
    rw [List.filterMap_cons]
    cases hf : f a with
    | none =>
      rw [List.countP_cons]
      simp [hf, count_filterMap_eq_countP f b l]
    | some b2 =>
      rw [countOcc_cons, List.countP_cons]
      simp only [hf, Option.some.injEq, count_filterMap_eq_countP f b l]
      by_cases hb : b2 = b
      · simp [hb]
      · simp [hb, fun h => hb (Eq.symm h)]

theorem count_flatMap_sum {α β : Type} [DecidableEq β] (f : α → List β) (b : β) :
    ∀ l : List α, countOcc b (l.flatMap f) = (l.map (fun a => countOcc b (f a))).sum
  | [] => rfl
  | a :: l => by
    rw [List.flatMap_cons, countOcc_append, List.map_cons, List.sum_cons,
      count_flatMap_sum f b l]

theorem wTokens_good (raw : List Char) : goodTokens (wTokens raw) := by
  intro x hx
  unfold wTokens at hx
  rw [List.mem_filter] at hx
  obtain ⟨hx1, _⟩ := hx
  rw [List.mem_filter] at hx1
  obtain ⟨hx2, hne⟩ := hx1
  refine ⟨by simpa using hne, splitSp_no_space _ x hx2⟩

theorem wTokens_not_stop (raw : List Char) : ∀ x ∈ wTokens raw, isStop x = false := by
  intro x hx
  unfold wTokens at hx
  rw [List.mem_filter] at hx
  obtain ⟨_, h⟩ := hx
  rw [Bool.and_eq_true] at h
  simpa using h.2

theorem goodTokens_slice (w : List (List Char)) (hw : goodTokens w) (i n : Nat) :
    goodTokens ((w.drop i).take n) := by
  intro x hx
  exact hw x (List.drop_subset i w (List.take_subset n _ hx))

theorem length_slice (w : List (List Char)) (i n : Nat) (h : i + n ≤ w.length) :
    ((w.drop i).take n).length = n := by
  rw [List.length_take, List.length_drop]
  omega

theorem splitSp_sliceGram (w : List (List Char)) (hw : goodTokens w) (i n : Nat)
    (hn : n ≠ 0) (hin : i + n ≤ w.length) :
    splitSp (sliceGram w i n) = (w.drop i).take n := by
  apply splitSp_joinSp
  · intro h
    have := length_slice w i n hin
    rw [h] at this
    simp at this
    exact hn this.symm
  · exact goodTokens_slice w hw i n

theorem mem_gramsOf (g : List Char) (w : List (List Char)) (h : g ∈ gramsOf w) :
    ∃ n, (n = 2 ∨ n = 3 ∨ n = 4) ∧ ∃ i, i + n ≤ w.length ∧
      (splitSp g).any isStop = false ∧ g = sliceGram w i n := by
  unfold gramsOf at h
  rw [List.mem_flatMap] at h
  obtain ⟨n, hn, hg⟩ := h
  have hrange : List.range' 2 3 = [2, 3, 4] := rfl
  rw [hrange] at hn
  rw [List.mem_filterMap] at hg
  obtain ⟨i, hi, hfi⟩ := hg
  rw [List.mem_range] at hi
  refine ⟨n, by simpa using hn, i, by omega, ?_⟩
  by_cases hstop : (splitSp (sliceGram w i n)).any isStop
  · rw [if_pos hstop] at hfi
    exact absurd hfi (by simp)
  · rw [if_neg hstop] at hfi
    rw [Option.some.injEq] at hfi
    subst hfi
    exact ⟨by simpa using hstop, rfl⟩

/-- C4: no PatternEntry returned by the pattern miner has a phrase containing a
stopword token: every token of the split of every returned phrase is absent
from the fixed stopword set (the per-gram re-check of the source guarantees
this for every key ever inserted into the frequency map). -/
theorem extractNgrams_no_stopword (titles : List (List Char)) (p : PatternEntry)
    (hp : p ∈ extractNgrams titles) :
    ∀ tok ∈ splitSp p.phrase, isStop tok = false := by
  intro tok htok
  unfold extractNgrams at hp
  obtain ⟨e, he, heq⟩ := List.mem_map.mp hp
  have he2 : e ∈ (titles.flatMap (fun raw => gramsOf (wTokens raw))).foldl bump [] :=
    (mem_sortDescBy _ e _).mp (List.take_subset 50 _ he)
  obtain ⟨hmem, _⟩ :=
    mem_foldl_bump_eq_count (titles.flatMap (fun raw => gramsOf (wTokens raw))) e.1 e.2
      (by cases e with | mk k v => exact he2)
  rw [List.mem_flatMap] at hmem
  obtain ⟨raw, _, hgram⟩ := hmem
  obtain ⟨n, _, i, _, hstop, _⟩ := mem_gramsOf e.1 (wTokens raw) hgram
  have hphrase : p.phrase = e.1 := by rw [← heq]
  rw [hphrase] at htok
  rw [List.any_eq_false] at hstop
  simpa using hstop tok htok

theorem extractNgrams_no_stopword_witness :
    isStop (str "xuyên") = false :=
  extractNgrams_no_stopword [str "xuyên không chiến"]
    (PatternEntry.mk (str "xuyên không") 1) (by decide) (str "xuyên") (by decide)

theorem joinSp_inj (ts us : List (List Char)) (hts : ts ≠ []) (hus : us ≠ [])
    (hgt : ∀ x ∈ ts, x ≠ [] ∧ ' ' ∉ x) (hgu : ∀ x ∈ us, x ≠ [] ∧ ' ' ∉ x)
    (h : joinSp ts = joinSp us) : ts = us := by
  rw [← splitSp_joinSp ts hts hgt, ← splitSp_joinSp us hus hgu, h]

theorem inner_count (w : List (List Char)) (hw : goodTokens w)
    (toks : List (List Char)) (hgt : goodTokens toks) (htne : toks ≠ [])
    (hstop : toks.any isStop = false) (n : Nat) (hn : n ≠ 0) :
    countOcc (joinSp toks)
        ((List.range (w.length + 1 - n)).filterMap (fun i =>
          let gram := sliceGram w i n
          if (splitSp gram).any isStop then none else some gram))
      = if n = toks.length then occCount w toks else 0 := by
  rw [count_filterMap_eq_countP]
  by_cases hneq : n = toks.length
  · rw [if_pos hneq]
    unfold occCount
    rw [← hneq]
    apply List.countP_congr
    intro i hi
    rw [List.mem_range] at hi
    have hin : i + n ≤ w.length := by omega
    have hsplit : splitSp (sliceGram w i n) = (w.drop i).take n :=
      splitSp_sliceGram w hw i n hn hin
    have hslice_good : goodTokens ((w.drop i).take n) := goodTokens_slice w hw i n
    have hslice_len : ((w.drop i).take n).length = n := length_slice w i n hin
    have hslice_ne : (w.drop i).take n ≠ [] := by
      intro h
      rw [h] at hslice_len
      exact hn hslice_len.symm
    simp only [decide_eq_decide]
    constructor
    · intro hsome
      by_cases hst : (splitSp (sliceGram w i n)).any isStop
      · rw [if_pos hst] at hsome
        exact absurd hsome (by simp)
      · rw [if_neg hst] at hsome
        have h1 : sliceGram w i n = joinSp toks := by simpa using hsome
        have h2 := joinSp_inj _ _ hslice_ne htne hslice_good hgt h1
        simp [h2]
    · intro heq
      have heqP : (w.drop i).take n = toks := by simpa using heq
      have hJ : sliceGram w i n = joinSp toks := by
        unfold sliceGram
        rw [heqP]
      have hstF : (splitSp (sliceGram w i n)).any isStop = false := by
        rw [hsplit, heqP]
        exact hstop
      simp [hstF, hJ]
      rw [splitSp_joinSp toks htne hgt]
      intro x hx
      simpa using List.any_eq_false.mp hstop x hx
  · rw [if_neg hneq]
    rw [List.countP_eq_zero]
    intro i hi
    rw [List.mem_range] at hi
    have hin : i + n ≤ w.length := by omega
    have hsplit : splitSp (sliceGram w i n) = (w.drop i).take n :=
      splitSp_sliceGram w hw i n hn hin
    have hslice_len : ((w.drop i).take n).length = n := length_slice w i n hin
    have hslice_ne : (w.drop i).take n ≠ [] := by
      intro h
      rw [h] at hslice_len
      exact hn hslice_len.symm
    simp only [decide_eq_true_eq]
    intro hsome
    by_cases hst : (splitSp (sliceGram w i n)).any isStop
    · rw [if_pos hst] at hsome
      exact absurd hsome (by simp)
    · rw [if_neg hst] at hsome
      have h1 := Option.some.inj hsome
      have h2 := joinSp_inj _ _ hslice_ne htne (goodTokens_slice w hw i n) hgt h1
      apply hneq
      rw [← hslice_len, h2]

theorem count_gramsOf (w : List (List Char)) (hw : goodTokens w)
    (toks : List (List Char)) (hgt : goodTokens toks)
    (hlen2 : 2 ≤ toks.length) (hlen4 : toks.length ≤ 4)
    (hstop : toks.any isStop = false) :
    countOcc (joinSp toks) (gramsOf w) = occCount w toks := by
  have htne : toks ≠ [] := by
    intro h
    rw [h] at hlen2
    simp at hlen2
  unfold gramsOf
  rw [count_flatMap_sum]
  have hrange : List.range' 2 3 = [2, 3, 4] := rfl
  rw [hrange]
  simp only [List.map_cons, List.map_nil, List.sum_cons, List.sum_nil]
  rw [inner_count w hw toks hgt htne hstop 2 (by omega),
    inner_count w hw toks hgt htne hstop 3 (by omega),
    inner_count w hw toks hgt htne hstop 4 (by omega)]
  by_cases h2 : toks.length = 2
  · rw [if_pos h2.symm, if_neg (by omega), if_neg (by omega)]
    omega
  · by_cases h3 : toks.length = 3
    · rw [if_neg (by omega), if_pos h3.symm, if_neg (by omega)]
      omega
    · have h4 : toks.length = 4 := by omega
      rw [if_neg (by omega), if_neg (by omega), if_pos h4.symm]
      omega

/-- C5: every PatternEntry returned by the pattern miner is a contiguous token
n-gram of 2 to 4 tokens of the cleaned, stopword-filtered token sequence of
some input title (its tokens occur consecutively in that sequence), and its
count equals the total number of window occurrences of that n-gram across the
whole title set. -/
theorem extractNgrams_contiguous_counts (titles : List (List Char)) (p : PatternEntry)
    (hp : p ∈ extractNgrams titles) :
    (2 ≤ (splitSp p.phrase).length ∧ (splitSp p.phrase).length ≤ 4)
    ∧ (∃ raw ∈ titles, ∃ s t : List (List Char),
        wTokens raw = s ++ splitSp p.phrase ++ t)
    ∧ p.count = occTotal titles (splitSp p.phrase) := by
  unfold extractNgrams at hp
  obtain ⟨e, he, heq⟩ := List.mem_map.mp hp
  have he2 : e ∈ (titles.flatMap (fun raw => gramsOf (wTokens raw))).foldl bump [] :=
    (mem_sortDescBy _ e _).mp (List.take_subset 50 _ he)
  obtain ⟨hmem, hcnt⟩ :=
    mem_foldl_bump_eq_count (titles.flatMap (fun raw => gramsOf (wTokens raw))) e.1 e.2
      (by cases e with | mk k v => exact he2)
  rw [List.mem_flatMap] at hmem
  obtain ⟨raw, hraw, hgram⟩ := hmem
  obtain ⟨n, hn234, i, hin, hstopF, hgeq⟩ := mem_gramsOf e.1 (wTokens raw) hgram
  have hw : goodTokens (wTokens raw) := wTokens_good raw
  have hn0 : n ≠ 0 := by rcases hn234 with h | h | h <;> omega
  have hsplit : splitSp e.1 = ((wTokens raw).drop i).take n := by
    rw [hgeq]
    exact splitSp_sliceGram (wTokens raw) hw i n hn0 hin
  have hslice_len := length_slice (wTokens raw) i n hin
  have hlen : (splitSp e.1).length = n := by rw [hsplit, hslice_len]
  have hphrase : p.phrase = e.1 := by rw [← heq]
  have hcount : p.count = e.2 := by rw [← heq]
  have htoks_good : goodTokens (splitSp e.1) := by
    rw [hsplit]
    exact goodTokens_slice (wTokens raw) hw i n
  have hjoin : joinSp (splitSp e.1) = e.1 := by
    rw [hsplit, hgeq]
    rfl
  refine ⟨?_, ?_, ?_⟩
  · rw [hphrase, hlen]
    rcases hn234 with h | h | h <;> omega
  · refine ⟨raw, hraw, (wTokens raw).take i, (wTokens raw).drop (i + n), ?_⟩
    rw [hphrase, hsplit]
    have hdd : (wTokens raw).drop (i + n) = ((wTokens raw).drop i).drop n := by
      rw [List.drop_drop, Nat.add_comm]
    rw [List.append_assoc, hdd, List.take_append_drop, List.take_append_drop]
  · rw [hcount, hcnt, hphrase]
    conv_lhs => rw [← hjoin]
    rw [count_flatMap_sum]
    unfold occTotal
    apply congrArg List.sum
    apply List.map_congr_left
    intro raw2 _
    exact count_gramsOf (wTokens raw2) (wTokens_good raw2) (splitSp e.1) htoks_good
      (by rw [hlen]; rcases hn234 with h | h | h <;> omega)
      (by rw [hlen]; rcases hn234 with h | h | h <;> omega)
      hstopF

theorem extractNgrams_contiguous_counts_witness :
    (2 ≤ (splitSp (PatternEntry.mk (str "xuyên không") 1).phrase).length ∧
      (splitSp (PatternEntry.mk (str "xuyên không") 1).phrase).length ≤ 4)
    ∧ (∃ raw ∈ [str "xuyên không chiến"], ∃ s t : List (List Char),
        wTokens raw = s ++ splitSp (PatternEntry.mk (str "xuyên không") 1).phrase ++ t)
    ∧ (PatternEntry.mk (str "xuyên không") 1).count =
        occTotal [str "xuyên không chiến"]
          (splitSp (PatternEntry.mk (str "xuyên không") 1).phrase) :=
  extractNgrams_contiguous_counts [str "xuyên không chiến"]
    (PatternEntry.mk (str "xuyên không") 1) (by decide)

/-- C2: for a fixed (channel reference, days, maxVideos) key, a request that
finds an unexpired cache entry (TTL 6 hours; the LRU/TTL store is modeled from
the spec) returns the stored bundle verbatim with zero upstream fetches, only
refreshing the entry's recency; a request that finds the entry expired never
completes with zero upstream fetches: the provider pipeline is invoked again. -/
theorem cacheHit_skips_provider (P : Provider) (now : Int) (days maxV : Nat)
    (c : List CacheEntry) (input : List Char) (e : CacheEntry)
    (hfind : c.find?
      (fun e2 => decide (e2.key = CacheKey.mk (parseChannelInput input) days maxV)) = some e) :
    (now < e.insertedAt + cacheTTL →
      fetchBundle P now days maxV c input =
        Except.ok (e.bundle,
          e :: c.filter
            (fun e2 => !decide (e2.key = CacheKey.mk (parseChannelInput input) days maxV)),
          0))
    ∧ (e.insertedAt + cacheTTL ≤ now →
        ∀ b : Bundle, ∀ c2 : List CacheEntry,
          fetchBundle P now days maxV c input ≠ Except.ok (b, c2, 0)) := by
  constructor
  · intro hfresh
    simp only [fetchBundle, cacheGet]
    rw [hfind]
    simp [hfresh]
  · intro hexp b c2 habs
    simp only [fetchBundle, cacheGet] at habs
    rw [hfind] at habs
    dsimp only at habs
    rw [if_neg (by omega)] at habs
    dsimp only at habs
    rcases hch : P.channels (parseChannelInput input) with _ | ch
    · rw [hch] at habs
      exact absurd habs (by simp)
    · rw [hch] at habs
      dsimp only at habs
      rcases hpl : ch.uploadsPlaylistId with _ | pl
      · rw [hpl] at habs
        exact absurd habs (by simp)
      · rw [hpl] at habs
        dsimp only at habs
        simp only [Except.ok.injEq, Prod.mk.injEq] at habs
        exact absurd habs.2.2 (by omega)

theorem cacheHit_skips_provider_witness :
    fetchBundle provW 1 7 80 [entryW] (str "@a") = Except.ok (bundleW, [entryW], 0) ∧
      fetchBundle provW cacheTTL 7 80 [entryW] (str "@a") ≠
        Except.ok (bundleW, [entryW], 0) := by
  have h1 := cacheHit_skips_provider provW 1 7 80 [entryW] (str "@a") entryW (by decide)
  have h2 := cacheHit_skips_provider provW cacheTTL 7 80 [entryW] (str "@a") entryW (by decide)
  refine ⟨?_, ?_⟩
  · have := h1.1 (by decide)
    simpa using this
  · exact h2.2 (by decide) bundleW [entryW]

theorem buildRow_publishedAt (ch : RChannel) (v : YTVideo) (now : Int) :
    (buildRow ch v now).publishedAt = v.publishedAt := rfl

theorem buildRows_filter_eq (ch : RChannel) (videos : List YTVideo) (now : Int) (days : Nat) :
    buildRows ch (videos.filter (fun v => v.publishedAt.isSome)) now days =
      buildRows ch videos now days := by
  unfold buildRows
  rw [List.filter_map, List.filter_map, List.filter_filter]
  apply congrArg (List.map (fun v => buildRow ch v now))
  apply List.filter_congr
  intro v _
  simp only [Function.comp_apply, buildRow_publishedAt]
  cases hv : v.publishedAt.isSome <;> simp [hv]

theorem buildRows_publishedAt_isSome (ch : RChannel) (videos : List YTVideo) (now : Int)
    (days : Nat) : ∀ r ∈ buildRows ch videos now days, r.publishedAt.isSome = true := by
  intro r hr
  unfold buildRows at hr
  rw [List.mem_filter] at hr
  exact (Bool.and_eq_true ..).mp hr.2 |>.1

theorem filterMap_dropNoTimestamp (P : Provider) : ∀ ids : List (List Char),
    ids.filterMap (dropNoTimestamp P).videos =
      (ids.filterMap P.videos).filter (fun v => v.publishedAt.isSome)
  | [] => rfl
  | id :: rest => by
    rw [List.filterMap_cons, List.filterMap_cons]
    have ih := filterMap_dropNoTimestamp P rest
    cases hv : P.videos id with
    | none =>
      have h2 : (dropNoTimestamp P).videos id = none := by
        simp [dropNoTimestamp, hv]
      rw [h2]
      exact ih
    | some v =>
      cases hp : v.publishedAt.isSome
      · have h2 : (dropNoTimestamp P).videos id = none := by
          simp [dropNoTimestamp, hv, hp]
        rw [h2]
        dsimp only
        rw [List.filter_cons]
        simp only [hp, if_false]
        exact ih
      · have h2 : (dropNoTimestamp P).videos id = some v := by
          simp [dropNoTimestamp, hv, hp]
        rw [h2]
        dsimp only
        rw [List.filter_cons]
        simp only [hp, if_true]
        rw [ih]

theorem mkBundle_dropNoTimestamp (P : Provider) (ch : RChannel) (pl : List Char)
    (now : Int) (days maxV : Nat) :
    mkBundle (dropNoTimestamp P) ch pl now days maxV = mkBundle P ch pl now days maxV := by
  simp only [mkBundle]
  rw [show (dropNoTimestamp P).playlist = P.playlist from rfl]
  rw [filterMap_dropNoTimestamp P (List.take maxV (P.playlist pl))]
  rw [buildRows_filter_eq]

theorem fetchBundle_dropNoTimestamp (P : Provider) (now : Int) (days maxV : Nat)
    (c : List CacheEntry) (input : List Char) :
    fetchBundle (dropNoTimestamp P) now days maxV c input =
      fetchBundle P now days maxV c input := by
  simp only [fetchBundle]
  cases cacheGet c (CacheKey.mk (parseChannelInput input) days maxV) now with
  | mk ob c1 =>
    cases ob with
    | some b => rfl
    | none =>
      rw [show (dropNoTimestamp P).channels = P.channels from rfl]
      cases hch : P.channels (parseChannelInput input) with
      | none => rfl
      | some ch =>
        dsimp only
        cases hpl : ch.uploadsPlaylistId with
        | none => rfl
        | some pl =>
          dsimp only
          show Except.ok (mkBundle (dropNoTimestamp P) ch pl now days maxV,
              cacheSet c1 (CacheKey.mk (parseChannelInput input) days maxV) now
                (mkBundle (dropNoTimestamp P) ch pl now days maxV), 1) =
            Except.ok (mkBundle P ch pl now days maxV,
              cacheSet c1 (CacheKey.mk (parseChannelInput input) days maxV) now
                (mkBundle P ch pl now days maxV), 1)
          rw [mkBundle_dropNoTimestamp]

theorem postLoop_dropNoTimestamp (P : Provider) (now : Int) (days maxV : Nat) :
    ∀ (inputs : List (List Char)) (c : List CacheEntry) (chs : List RChannel)
      (rows : List VideoRow),
    postLoop (dropNoTimestamp P) now days maxV inputs c chs rows =
      postLoop P now days maxV inputs c chs rows
  | [], _, _, _ => rfl
  | inp :: rest, c, chs, rows => by
    show (match fetchBundle (dropNoTimestamp P) now days maxV c inp with
      | Except.error e => Except.error e
      | Except.ok (b, c1, _) =>
        postLoop (dropNoTimestamp P) now days maxV rest c1 (chs ++ [b.ch]) (rows ++ b.rows)) =
      (match fetchBundle P now days maxV c inp with
      | Except.error e => Except.error e
      | Except.ok (b, c1, _) =>
        postLoop P now days maxV rest c1 (chs ++ [b.ch]) (rows ++ b.rows))
    rw [fetchBundle_dropNoTimestamp]
    cases fetchBundle P now days maxV c inp with
    | error e => rfl
    | ok out =>
      cases out with
      | mk b rest2 =>
        cases rest2 with
        | mk c1 cnt =>
          exact postLoop_dropNoTimestamp P now days maxV rest c1 (chs ++ [b.ch])
            (rows ++ b.rows)

/-- C9: a provider item whose snippet lacks a publishedAt timestamp is
silently excluded: the whole response is unchanged when such items are removed
from the provider listing (so they appear in no rows, aggregate or top list,
and cause no error), row construction ignores them in the window filter, and
every row that is built carries a present publishedAt (none is treated as
published now). -/
theorem missingPublishedAt_excluded (P : Provider) (now : Int) (req : AnalyzeRequest)
    (c : List CacheEntry) (ch : RChannel) (videos : List YTVideo) (days : Nat) :
    POST (dropNoTimestamp P) now req c = POST P now req c
    ∧ buildRows ch (videos.filter (fun v => v.publishedAt.isSome)) now days =
        buildRows ch videos now days
    ∧ (∀ r ∈ buildRows ch videos now days, r.publishedAt.isSome = true) := by
  refine ⟨?_, buildRows_filter_eq ch videos now days,
    buildRows_publishedAt_isSome ch videos now days⟩
  unfold POST
  rw [postLoop_dropNoTimestamp]

theorem missingPublishedAt_excluded_witness :
    POST (dropNoTimestamp provW) 1000000000000 (AnalyzeRequest.mk [str "@a"] 7 80) [] =
      POST provW 1000000000000 (AnalyzeRequest.mk [str "@a"] 7 80) []
    ∧ buildRows chW ([vNoTs, vTs].filter (fun v => v.publishedAt.isSome)) 1000000000000 7 =
        buildRows chW [vNoTs, vTs] 1000000000000 7
    ∧ (buildRow chW vTs 1000000000000).publishedAt.isSome = true :=
  have h := missingPublishedAt_excluded provW 1000000000000
    (AnalyzeRequest.mk [str "@a"] 7 80) [] chW [vNoTs, vTs] 7
  ⟨h.1, h.2.1,
    h.2.2 (buildRow chW vTs 1000000000000)
      (by
        show buildRow chW vTs 1000000000000 ∈ [buildRow chW vTs 1000000000000]
        exact List.mem_singleton_self _)⟩

theorem cacheGet_mem_snd (c : List CacheEntry) (k : CacheKey) (now : Int) (e : CacheEntry)
    (h : e ∈ (cacheGet c k now).2) : e ∈ c := by
  unfold cacheGet at h
  cases hfind : c.find? (fun e2 => decide (e2.key = k)) with
  | none =>
    rw [hfind] at h
    exact h
  | some e2 =>
    rw [hfind] at h
    dsimp only at h
    by_cases hfresh : now < e2.insertedAt + cacheTTL
    · rw [if_pos hfresh] at h
      rcases List.mem_cons.mp h with h1 | h1
      · exact h1 ▸ List.mem_of_find?_eq_some hfind
      · exact List.mem_of_mem_filter h1
    · rw [if_neg hfresh] at h
      exact List.mem_of_mem_filter h
  
theorem cacheSet_mem (c : List CacheEntry) (k : CacheKey) (now : Int) (b : Bundle)
    (e : CacheEntry) (h : e ∈ cacheSet c k now b) :
    e = CacheEntry.mk k now b ∨ e ∈ c := by
  unfold cacheSet at h
  have h2 := List.take_subset cacheMax _ h
  rcases List.mem_cons.mp h2 with h1 | h1
  · exact Or.inl h1
  · exact Or.inr (List.mem_of_mem_filter h1)

theorem cacheGet_hit_key (c : List CacheEntry) (k : CacheKey) (now : Int) (b : Bundle)
    (c2 : List CacheEntry) (h : cacheGet c k now = (some b, c2)) :
    ∃ e ∈ c, e.key = k ∧ e.bundle = b := by
  unfold cacheGet at h
  cases hfind : c.find? (fun e2 => decide (e2.key = k)) with
  | none =>
    rw [hfind] at h
    exact absurd h (by simp)
  | some e =>
    rw [hfind] at h
    dsimp only at h
    by_cases hfresh : now < e.insertedAt + cacheTTL
    · rw [if_pos hfresh] at h
      refine ⟨e, List.mem_of_find?_eq_some hfind, ?_, ?_⟩
      · have := List.find?_some hfind
        simpa using this
      · simpa using (Prod.mk.injEq .. |>.mp h).1
    · rw [if_neg hfresh] at h
      exact absurd h (by simp)

theorem cacheGet_snd_eq (c : List CacheEntry) (k : CacheKey) (now : Int) (ob : Option Bundle)
    (c1 : List CacheEntry) (h : cacheGet c k now = (ob, c1)) (e : CacheEntry) (he : e ∈ c1) :
    e ∈ c := by
  apply cacheGet_mem_snd c k now e
  rw [h]
  exact he

theorem fetchBundle_preserves_resolvable (P : Provider) (now : Int) (days maxV : Nat)
    (c : List CacheEntry) (input : List Char) (b : Bundle) (c2 : List CacheEntry) (cnt : Nat)
    (hres : cacheResolvable P c)
    (h : fetchBundle P now days maxV c input = Except.ok (b, c2, cnt)) :
    cacheResolvable P c2 := by
  simp only [fetchBundle] at h
  cases hget : cacheGet c (CacheKey.mk (parseChannelInput input) days maxV) now with
  | mk ob c1 =>
    rw [hget] at h
    cases ob with
    | some b0 =>
      dsimp only at h
      simp only [Except.ok.injEq, Prod.mk.injEq] at h
      intro e he
      rw [← h.2.1] at he
      exact hres e (cacheGet_snd_eq c _ now _ c1 hget e he)
    | none =>
      dsimp only at h
      cases hch : P.channels (parseChannelInput input) with
      | none =>
        rw [hch] at h
        exact absurd h (by simp)
      | some ch =>
        rw [hch] at h
        dsimp only at h
        cases hpl : ch.uploadsPlaylistId with
        | none =>
          rw [hpl] at h
          exact absurd h (by simp)
        | some pl =>
          rw [hpl] at h
          dsimp only at h
          simp only [Except.ok.injEq, Prod.mk.injEq] at h
          intro e he
          rw [← h.2.1] at he
          rcases cacheSet_mem _ _ _ _ e he with h1 | h1
          · rw [h1]
            simp [hch]
          · exact hres e (cacheGet_snd_eq c _ now _ c1 hget e h1)

theorem fetchBundle_fail (P : Provider) (now : Int) (days maxV : Nat)
    (c : List CacheEntry) (input : List Char)
    (hres : cacheResolvable P c)
    (hfail : P.channels (parseChannelInput input) = none) :
    ∃ c2 : List CacheEntry, fetchBundle P now days maxV c input =
      Except.error
        (str "Không tìm thấy channel: " ++ (parseChannelInput input).value, c2) := by
  simp only [fetchBundle]
  cases hget : cacheGet c (CacheKey.mk (parseChannelInput input) days maxV) now with
  | mk ob c1 =>
    cases ob with
    | some b0 =>
      exfalso
      obtain ⟨e, hec, hek, _⟩ := cacheGet_hit_key c _ now b0 c1 hget
      have h2 := hres e hec
      have h3 : e.key.parsed = parseChannelInput input := by
        rw [hek]
      rw [h3, hfail] at h2
      simp at h2
    | none =>
      dsimp only
      rw [hfail]
      exact ⟨c1, rfl⟩

theorem fetchBundle_ok_of_resolvesOK (P : Provider) (now : Int) (days maxV : Nat)
    (c : List CacheEntry) (input : List Char)
    (hok : resolvesOK P input = true) :
    ∃ b : Bundle, ∃ c2 : List CacheEntry, ∃ cnt : Nat,
      fetchBundle P now days maxV c input = Except.ok (b, c2, cnt) := by
  simp only [fetchBundle]
  cases hget : cacheGet c (CacheKey.mk (parseChannelInput input) days maxV) now with
  | mk ob c1 =>
    cases ob with
    | some b0 => exact ⟨b0, c1, 0, rfl⟩
    | none =>
      dsimp only
      unfold resolvesOK at hok
      cases hch : P.channels (parseChannelInput input) with
      | none =>
        rw [hch] at hok
        exact absurd hok (by simp)
      | some ch =>
        rw [hch] at hok
        dsimp only at hok
        dsimp only
        cases hpl : ch.uploadsPlaylistId with
        | none =>
          rw [hpl] at hok
          exact absurd hok (by simp)
        | some pl =>
          dsimp only
          exact ⟨_, _, 1, rfl⟩

theorem postLoop_fail (P : Provider) (now : Int) (days maxV : Nat) :
    ∀ (inputs : List (List Char)) (k : Nat) (hk : k < inputs.length)
      (c : List CacheEntry) (chs : List RChannel) (rows : List VideoRow),
    cacheResolvable P c →
    ((inputs.take k).all (resolvesOK P)) = true →
    P.channels (parseChannelInput (inputs.get ⟨k, hk⟩)) = none →
    ∃ c2 : List CacheEntry,
      postLoop P now days maxV inputs c chs rows =
        Except.error (str "Không tìm thấy channel: " ++
          (parseChannelInput (inputs.get ⟨k, hk⟩)).value, c2)
  | [], k, hk, _, _, _, _, _, _ => absurd hk (by simp)
  | inp :: rest, 0, hk, c, chs, rows, hres, hall, hfail => by
    obtain ⟨c2, hfb⟩ := fetchBundle_fail P now days maxV c inp hres hfail
    refine ⟨c2, ?_⟩
    show (match fetchBundle P now days maxV c inp with
      | Except.error e => Except.error e
      | Except.ok (b, c1, _) =>
        postLoop P now days maxV rest c1 (chs ++ [b.ch]) (rows ++ b.rows)) = _
    rw [hfb]
    rfl
  | inp :: rest, k + 1, hk, c, chs, rows, hres, hall, hfail => by
    have hall2 := hall
    rw [List.take_succ_cons, List.all_cons, Bool.and_eq_true] at hall2
    obtain ⟨b, c2, cnt, hfb⟩ :=
      fetchBundle_ok_of_resolvesOK P now days maxV c inp hall2.1
    have hres2 := fetchBundle_preserves_resolvable P now days maxV c inp b c2 cnt hres hfb
    have hk2 : k < rest.length := by simpa using hk
    obtain ⟨c3, hloop⟩ := postLoop_fail P now days maxV rest k hk2 c2 (chs ++ [b.ch])
      (rows ++ b.rows) hres2 hall2.2 hfail
    refine ⟨c3, ?_⟩
    show (match fetchBundle P now days maxV c inp with
      | Except.error e => Except.error e
      | Except.ok (b, c1, _) =>
        postLoop P now days maxV rest c1 (chs ++ [b.ch]) (rows ++ b.rows)) = _
    rw [hfb]
    exact hloop

/-- C8: when channel resolution of the k-th input yields zero upstream results
and every earlier input resolves to a channel with an uploads playlist, the
whole multi-channel request (run from the empty cache of a fresh module)
returns the error response whose message names the unresolved reference
value; the error branch of the route carries only that message, so no partial
per-channel results from already-processed channels appear in the response. -/
theorem resolutionFailure_aborts (P : Provider) (now : Int) (days maxV : Nat)
    (inputs : List (List Char)) (k : Nat) (hk : k < inputs.length)
    (hall : ((inputs.take k).all (resolvesOK P)) = true)
    (hfail : P.channels (parseChannelInput (inputs.get ⟨k, hk⟩)) = none) :
    (POST P now (AnalyzeRequest.mk inputs days maxV) []).1 =
      Except.error (str "Không tìm thấy channel: " ++
        (parseChannelInput (inputs.get ⟨k, hk⟩)).value) := by
  obtain ⟨c2, hloop⟩ := postLoop_fail P now days maxV inputs k hk [] [] []
    (by intro e he; simp at he) hall hfail
  unfold POST
  dsimp only
  rw [hloop]

theorem resolutionFailure_aborts_witness :
    (POST provW 0 (AnalyzeRequest.mk [str "@a", str "@b"] 7 80) []).1 =
      Except.error (str "Không tìm thấy channel: " ++
        (parseChannelInput (str "@b")).value) :=
  resolutionFailure_aborts provW 0 7 80 [str "@a", str "@b"] 1 (by decide) (by decide)
    (by decide)

theorem alookD_foldl_pushRow :
    ∀ (l : List VideoRow) (m : List (List Char × List VideoRow)) (cid : List Char),
    (alook (l.foldl pushRow m) cid).getD [] =
      (alook m cid).getD [] ++ l.filter (fun r => decide (r.channelId = cid))
  | [], m, cid => by simp
  | r :: l, m, cid => by
    rw [List.foldl_cons, alookD_foldl_pushRow l (pushRow m r) cid]
    unfold pushRow
    rw [List.filter_cons]
    by_cases he : r.channelId = cid
    · subst he
      rw [alook_jsMapSet_self]
      simp
    · rw [alook_jsMapSet_other _ _ _ _ (fun h => he h.symm)]
      simp [he, List.append_assoc]

theorem mem_keys_foldl_pushRow :
    ∀ (l : List VideoRow) (m : List (List Char × List VideoRow)) (cid : List Char),
    cid ∈ keysOf (l.foldl pushRow m) →
      cid ∈ keysOf m ∨ cid ∈ l.map (fun r => r.channelId)
  | [], _, _, h => Or.inl h
  | r :: l, m, cid, h => by
    rw [List.foldl_cons] at h
    rcases mem_keys_foldl_pushRow l (pushRow m r) cid h with h1 | h1
    · rcases mem_keys_jsMapSet m r.channelId cid _ h1 with h2 | h2
      · exact Or.inl h2
      · exact Or.inr (by simp [h2])
    · exact Or.inr (by simp; right; simpa using h1)

theorem nodup_keys_foldl_pushRow :
    ∀ (l : List VideoRow) (m : List (List Char × List VideoRow)),
    (keysOf m).Nodup → (keysOf (l.foldl pushRow m)).Nodup
  | [], _, h => h
  | r :: l, m, h => by
    rw [List.foldl_cons]
    exact nodup_keys_foldl_pushRow l (pushRow m r) (nodup_keys_jsMapSet m r.channelId _ h)

theorem mem_groupByChannel (rows : List VideoRow) (cid : List Char) (grp : List VideoRow)
    (h : (cid, grp) ∈ groupByChannel rows) :
    grp = rows.filter (fun r => decide (r.channelId = cid)) ∧
      cid ∈ rows.map (fun r => r.channelId) := by
  unfold groupByChannel at h
  have hnd : (keysOf (rows.foldl pushRow [])).Nodup :=
    nodup_keys_foldl_pushRow rows [] (by simp [keysOf])
  have halook := alook_of_mem_nodup _ cid grp hnd h
  have hD := alookD_foldl_pushRow rows [] cid
  rw [halook] at hD
  simp only [alook_nil, Option.getD_some, Option.getD_none, List.nil_append] at hD
  refine ⟨hD, ?_⟩
  have hk : cid ∈ keysOf (rows.foldl pushRow []) := List.mem_map.mpr ⟨(cid, grp), h, rfl⟩
  rcases mem_keys_foldl_pushRow rows [] cid hk with h1 | h1
  · simp [keysOf] at h1
  · exact h1

theorem buildRows_channelId (ch : RChannel) (videos : List YTVideo) (now : Int) (days : Nat) :
    ∀ r ∈ buildRows ch videos now days, r.channelId = ch.channelId := by
  intro r hr
  unfold buildRows at hr
  rw [List.mem_filter] at hr
  obtain ⟨v, _, heq⟩ := List.mem_map.mp hr.1
  rw [← heq]
  rfl

theorem summarizeGroup_spec (g : List Char × List VideoRow) :
    (summarizeGroup g).videosInWindow = g.2.length ∧
    ∀ e2 ∈ (summarizeGroup g).hookMix,
      e2.count = countOcc e2.tag (g.2.map (fun r => r.hookTag)) := by
  refine ⟨rfl, ?_⟩
  intro e2 he2
  have hmix : (summarizeGroup g).hookMix =
      ((sortDescBy (fun e => (e.2 : Int))
        (g.2.foldl (fun m r => bump m r.hookTag) [])).take 8).map
        (fun e => HookMixEntry.mk e.1 e.2) := rfl
  rw [hmix] at he2
  obtain ⟨pair, hpair, heq⟩ := List.mem_map.mp he2
  have hfold : g.2.foldl (fun m r => bump m r.hookTag) [] =
      (g.2.map (fun r => r.hookTag)).foldl bump [] := by
    rw [List.foldl_map]
  have hp2 : pair ∈ (g.2.map (fun r => r.hookTag)).foldl bump [] := by
    rw [← hfold]
    exact (mem_sortDescBy _ pair _).mp (List.take_subset 8 _ hpair)
  obtain ⟨_, hcnt⟩ := mem_foldl_bump_eq_count (g.2.map (fun r => r.hookTag)) pair.1 pair.2
    (by cases pair with | mk a b => exact hp2)
  rw [← heq]
  exact hcnt

/-- C10: when two input strings of one request parse to the same channel
reference, the channel is processed twice: its record appears twice in
channels, every video record of its bundle appears twice in rows, and the
single channelSummary entry produced by the byChannel grouping has
videosInWindow and every hookMix count doubled relative to the one fetched
bundle (whose rows are the distinct videos in the window). -/
theorem duplicateInputs_double (P : Provider) (now : Int) (days maxV : Nat)
    (s1 s2 : List Char) (ch : RChannel) (pl : List Char)
    (hparse : parseChannelInput s2 = parseChannelInput s1)
    (hres : P.channels (parseChannelInput s1) = some ch)
    (hpl : ch.uploadsPlaylistId = some pl) :
    ∃ out : AnalyzeResponse, ∃ c3 : List CacheEntry,
      POST P now (AnalyzeRequest.mk [s1, s2] days maxV) [] = (Except.ok out, c3) ∧
      out.channels = [ch, ch] ∧
      out.rows = (mkBundle P ch pl now days maxV).rows ++ (mkBundle P ch pl now days maxV).rows ∧
      ∀ s ∈ out.channelSummary,
        s.videosInWindow = 2 * (mkBundle P ch pl now days maxV).rows.length ∧
        ∀ e2 ∈ s.hookMix,
          e2.count = 2 * countOcc e2.tag
            ((mkBundle P ch pl now days maxV).rows.map (fun r => r.hookTag)) := by
  set B := mkBundle P ch pl now days maxV with hB
  set key := CacheKey.mk (parseChannelInput s1) days maxV with hkey
  set E := CacheEntry.mk key now B with hE
  have hset : cacheSet [] key now B = [E] := by
    unfold cacheSet
    simp [cacheMax]
  have h1 : fetchBundle P now days maxV [] s1 = Except.ok (B, [E], 1) := by
    simp only [fetchBundle]
    have hget : cacheGet [] key now = (none, []) := rfl
    rw [← hkey, hget]
    dsimp only
    rw [hres]
    dsimp only
    rw [hpl]
    dsimp only
    rw [← hB, hset]
  have hfind : [E].find? (fun e2 => decide (e2.key = key)) = some E := by
    simp [List.find?]
  have h2 : fetchBundle P now days maxV [E] s2 = Except.ok (B, [E], 0) := by
    simp only [fetchBundle]
    rw [hparse, ← hkey]
    unfold cacheGet
    rw [hfind]
    dsimp only
    rw [if_pos (by show now < E.insertedAt + cacheTTL; rw [hE]; unfold cacheTTL; dsimp only; omega)]
    dsimp only
    have hfilter : [E].filter (fun e2 => !decide (e2.key = key)) = [] := by
      simp [List.filter]
    rw [hfilter]
  have hloop : postLoop P now days maxV [s1, s2] [] [] [] =
      Except.ok (([] ++ [B.ch]) ++ [B.ch], (([] ++ B.rows) ++ B.rows), [E]) := by
    show (match fetchBundle P now days maxV [] s1 with
      | Except.error e => Except.error e
      | Except.ok (b, c1, _) =>
        postLoop P now days maxV [s2] c1 ([] ++ [b.ch]) ([] ++ b.rows)) = _
    rw [h1]
    dsimp only
    show (match fetchBundle P now days maxV [E] s2 with
      | Except.error e => Except.error e
      | Except.ok (b, c1, _) =>
        postLoop P now days maxV [] c1 (([] ++ [B.ch]) ++ [b.ch]) (([] ++ B.rows) ++ b.rows)) = _
    rw [h2]
    rfl
  have hallrows_cid : ∀ r ∈ ([] ++ B.rows) ++ B.rows, r.channelId = ch.channelId := by
    intro r hr
    simp only [List.nil_append, List.mem_append] at hr
    have hBrows : ∀ r2 ∈ B.rows, r2.channelId = ch.channelId := by
      intro r2 hr2
      exact buildRows_channelId ch _ now days r2 hr2
    rcases hr with h | h
    · exact hBrows r h
    · exact hBrows r h
  refine ⟨(AnalyzeResponse.mk days maxV (([] ++ [B.ch]) ++ [B.ch])
    (summarize (([] ++ B.rows) ++ B.rows))
    ((sortDescBy (fun r : VideoRow => r.velocity) (([] ++ B.rows) ++ B.rows)).take 20)
    ((sortDescBy (fun r : VideoRow => (r.viewsPerDay : Int)) (([] ++ B.rows) ++ B.rows)).take 20)
    (extractNgrams ((([] ++ B.rows) ++ B.rows).map (fun r : VideoRow => r.title.getD [])))
    (([] ++ B.rows) ++ B.rows)), [E], ?_, ?_, ?_, ?_⟩
  · unfold POST
    dsimp only
    rw [hloop]
  · show ([] ++ [B.ch]) ++ [B.ch] = [ch, ch]
    have : B.ch = ch := rfl
    simp [this]
  · show ([] ++ B.rows) ++ B.rows = B.rows ++ B.rows
    simp
  · intro s hs
    show s.videosInWindow = 2 * B.rows.length ∧ _
    have hs2 : s ∈ summarize (([] ++ B.rows) ++ B.rows) := hs
    unfold summarize at hs2
    have hs3 := (mem_sortDescBy _ s _).mp hs2
    obtain ⟨g, hg, heq⟩ := List.mem_map.mp hs3
    obtain ⟨hgrp, hcid⟩ := mem_groupByChannel _ g.1 g.2 (by cases g with | mk a b => exact hg)
    have hcid2 : g.1 = ch.channelId := by
      obtain ⟨r, hr, hrc⟩ := List.mem_map.mp hcid
      rw [← hrc]
      exact hallrows_cid r hr
    have hgrp2 : g.2 = ([] ++ B.rows) ++ B.rows := by
      rw [hgrp]
      apply List.filter_eq_self.mpr
      intro r hr
      simp [hallrows_cid r hr, hcid2]
    have hss := summarizeGroup_spec g
    constructor
    · rw [← heq, hss.1, hgrp2]
      simp [Nat.two_mul]
    · intro e2 he2
      have := hss.2 e2 (by rw [heq]; exact he2)
      rw [this, hgrp2]
      simp only [List.nil_append, List.map_append, countOcc_append]
      omega

theorem duplicateInputs_double_witness :
    ∃ out : AnalyzeResponse, ∃ c3 : List CacheEntry,
      POST provW 0 (AnalyzeRequest.mk [str "@a", str "https://www.youtube.com/@a"] 7 80) [] =
        (Except.ok out, c3) ∧
      out.channels = [chW, chW] ∧
      out.rows = (mkBundle provW chW (str "PLW") 0 7 80).rows ++
        (mkBundle provW chW (str "PLW") 0 7 80).rows ∧
      ∀ s ∈ out.channelSummary,
        s.videosInWindow = 2 * (mkBundle provW chW (str "PLW") 0 7 80).rows.length ∧
        ∀ e2 ∈ s.hookMix,
          e2.count = 2 * countOcc e2.tag
            ((mkBundle provW chW (str "PLW") 0 7 80).rows.map (fun r => r.hookTag)) :=
  duplicateInputs_double provW 0 7 80 (str "@a") (str "https://www.youtube.com/@a")
    chW (str "PLW") (by decide) (by decide) (by decide)

theorem cacheTTL_pos : (0 : Int) < cacheTTL := by decide

theorem buildRows_window (ch : RChannel) (videos : List YTVideo) (now : Int) (days : Nat) :
    ∀ r ∈ buildRows ch videos now days,
      ∃ p : Int, r.publishedAt = some p ∧ now - (days : Int) * dayMs < p := by
  intro r hr
  unfold buildRows at hr
  rw [List.mem_filter] at hr
  obtain ⟨h1, h2⟩ := Bool.and_eq_true .. |>.mp hr.2
  obtain ⟨p, hp⟩ := Option.isSome_iff_exists.mp h1
  refine ⟨p, hp, ?_⟩
  have := of_decide_eq_true h2
  rw [hp] at this
  simpa using this

theorem cacheWF_nil (now : Int) : cacheWF now [] := by
  intro e he
  simp at he

theorem cacheWF_mono (now now2 : Int) (c : List CacheEntry) (h : now ≤ now2)
    (hwf : cacheWF now c) : cacheWF now2 c := by
  intro e he
  exact ⟨le_trans (hwf e he).1 h, (hwf e he).2⟩

theorem cacheGet_hit_fresh (c : List CacheEntry) (k : CacheKey) (now : Int) (b : Bundle)
    (c2 : List CacheEntry) (h : cacheGet c k now = (some b, c2)) :
    ∃ e ∈ c, e.key = k ∧ e.bundle = b ∧ now < e.insertedAt + cacheTTL := by
  unfold cacheGet at h
  cases hfind : c.find? (fun e2 => decide (e2.key = k)) with
  | none =>
    rw [hfind] at h
    exact absurd h (by simp)
  | some e =>
    rw [hfind] at h
    dsimp only at h
    by_cases hfresh : now < e.insertedAt + cacheTTL
    · rw [if_pos hfresh] at h
      refine ⟨e, List.mem_of_find?_eq_some hfind, ?_, ?_, hfresh⟩
      · have := List.find?_some hfind
        simpa using this
      · simpa using (Prod.mk.injEq .. |>.mp h).1
    · rw [if_neg hfresh] at h
      exact absurd h (by simp)

theorem mkBundle_rows (P : Provider) (ch : RChannel) (pl : List Char) (now : Int)
    (days maxV : Nat) :
    (mkBundle P ch pl now days maxV).rows =
      buildRows ch (((P.playlist pl).take maxV).filterMap P.videos) now days := rfl

theorem fetchBundle_wf (P : Provider) (now : Int) (days maxV : Nat)
    (c : List CacheEntry) (input : List Char) (b : Bundle) (c2 : List CacheEntry) (cnt : Nat)
    (hwf : cacheWF now c)
    (h : fetchBundle P now days maxV c input = Except.ok (b, c2, cnt)) :
    (∀ r ∈ b.rows, rowWindowBound now days r) ∧ cacheWF now c2 := by
  simp only [fetchBundle] at h
  cases hget : cacheGet c (CacheKey.mk (parseChannelInput input) days maxV) now with
  | mk ob c1 =>
    rw [hget] at h
    cases ob with
    | some b0 =>
      dsimp only at h
      simp only [Except.ok.injEq, Prod.mk.injEq] at h
      obtain ⟨e, hec, hek, heb, hfresh⟩ := cacheGet_hit_fresh c _ now b0 c1 hget
      obtain ⟨hins, hrows⟩ := hwf e hec
      constructor
      · intro r hr
        rw [← h.1, ← heb] at hr
        obtain ⟨p, hp, hpw⟩ := hrows r hr
        refine ⟨p, e.insertedAt, hp, by omega, hins, ?_⟩
        have hdays : e.key.days = days := by rw [hek]
        rw [hdays] at hpw
        exact hpw
      · intro e2 he2
        rw [← h.2.1] at he2
        exact hwf e2 (cacheGet_snd_eq c _ now _ c1 hget e2 he2)
    | none =>
      dsimp only at h
      cases hch : P.channels (parseChannelInput input) with
      | none =>
        rw [hch] at h
        exact absurd h (by simp)
      | some ch =>
        rw [hch] at h
        dsimp only at h
        cases hpl : ch.uploadsPlaylistId with
        | none =>
          rw [hpl] at h
          exact absurd h (by simp)
        | some pl =>
          rw [hpl] at h
          dsimp only at h
          simp only [Except.ok.injEq, Prod.mk.injEq] at h
          constructor
          · intro r hr
            rw [← h.1, mkBundle_rows] at hr
            obtain ⟨p, hp, hpw⟩ := buildRows_window ch _ now days r hr
            exact ⟨p, now, hp, by have := cacheTTL_pos; omega, le_refl now, hpw⟩
          · intro e2 he2
            rw [← h.2.1] at he2
            rcases cacheSet_mem _ _ _ _ e2 he2 with h1 | h1
            · rw [h1]
              refine ⟨le_refl now, ?_⟩
              intro r hr
              dsimp only at hr
              rw [mkBundle_rows] at hr
              obtain ⟨p, hp, hpw⟩ := buildRows_window ch _ now days r hr
              exact ⟨p, hp, hpw⟩
            · exact hwf e2 (cacheGet_snd_eq c _ now _ c1 hget e2 h1)

theorem postLoop_wf (P : Provider) (now : Int) (days maxV : Nat) :
    ∀ (inputs : List (List Char)) (c : List CacheEntry) (chs : List RChannel)
      (rows : List VideoRow) (chs2 : List RChannel) (rows2 : List VideoRow)
      (c2 : List CacheEntry),
    cacheWF now c →
    postLoop P now days maxV inputs c chs rows = Except.ok (chs2, rows2, c2) →
    (∀ r ∈ rows2, r ∈ rows ∨ rowWindowBound now days r) ∧ cacheWF now c2
  | [], c, chs, rows, chs2, rows2, c2, hwf, h => by
    simp only [postLoop, Except.ok.injEq, Prod.mk.injEq] at h
    obtain ⟨_, h2, h3⟩ := h
    rw [← h2]
    rw [← h3]
    exact ⟨fun r hr => Or.inl hr, hwf⟩
  | inp :: rest, c, chs, rows, chs2, rows2, c2, hwf, h => by
    have h2 : (match fetchBundle P now days maxV c inp with
      | Except.error e => Except.error e
      | Except.ok (b, c1, _) =>
        postLoop P now days maxV rest c1 (chs ++ [b.ch]) (rows ++ b.rows)) =
        Except.ok (chs2, rows2, c2) := h
    cases hfb : fetchBundle P now days maxV c inp with
    | error e =>
      rw [hfb] at h2
      exact absurd h2 (by simp)
    | ok out =>
      obtain ⟨b, c1, cnt⟩ := out
      rw [hfb] at h2
      dsimp only at h2
      obtain ⟨hbound, hwf1⟩ :=
        fetchBundle_wf P now days maxV c inp b c1 cnt hwf hfb
      obtain ⟨hmem, hwf2⟩ := postLoop_wf P now days maxV rest c1 (chs ++ [b.ch])
        (rows ++ b.rows) chs2 rows2 c2 hwf1 h2
      refine ⟨?_, hwf2⟩
      intro r hr
      rcases hmem r hr with h3 | h3
      · rcases List.mem_append.mp h3 with h4 | h4
        · exact Or.inl h4
        · exact Or.inr (hbound r h4)
      · exact Or.inr h3

/-- C1 (amended): every VideoRecord anywhere in a successful response — rows,
both global top lists, and the rows from which channelSummary and
globalPatterns are computed — was published strictly inside the days-window
of the instant tf at which its bundle was fetched, where tf is at most one
cache TTL (6 hours) before the request instant and equals it for
freshly-fetched bundles; a video published exactly at a cutoff is excluded by
the strict comparison. The precondition cacheWF holds of every reachable
cache state: it holds of the empty cache, is preserved by every request, and
is monotone in the request instant. (The original claim measured the window
from the current request's instant for cached bundles too; the counterexample
theorem refutes that reading.) -/
theorem post_window_invariant (P : Provider) (now : Int) (req : AnalyzeRequest)
    (c : List CacheEntry) (out : AnalyzeResponse) (c2 : List CacheEntry)
    (hwf : cacheWF now c)
    (h : POST P now req c = (Except.ok out, c2)) :
    (∀ r ∈ out.rows, rowWindowBound now req.days r)
    ∧ (∀ r ∈ out.globalTopByVelocity, rowWindowBound now req.days r)
    ∧ (∀ r ∈ out.globalTopByViewsPerDay, rowWindowBound now req.days r)
    ∧ out.channelSummary = summarize out.rows
    ∧ out.globalPatterns = extractNgrams (out.rows.map (fun r => r.title.getD []))
    ∧ cacheWF now c2 := by
  unfold POST at h
  cases hloop : postLoop P now req.days req.maxVideos req.inputs c [] [] with
  | error e =>
    obtain ⟨e1, e2⟩ := e
    rw [hloop] at h
    exact absurd h (by simp)
  | ok res =>
    obtain ⟨chs, allRows, c1⟩ := res
    rw [hloop] at h
    dsimp only at h
    simp only [Prod.mk.injEq, Except.ok.injEq] at h
    obtain ⟨hout, hc2⟩ := h
    obtain ⟨hmem, hwf1⟩ := postLoop_wf P now req.days req.maxVideos req.inputs c [] []
      chs allRows c1 hwf hloop
    have hbound : ∀ r ∈ allRows, rowWindowBound now req.days r := by
      intro r hr
      rcases hmem r hr with h1 | h1
      · simp at h1
      · exact h1
    rw [← hout]
    refine ⟨hbound, ?_, ?_, rfl, rfl, hc2 ▸ hwf1⟩
    · intro r hr
      exact hbound r ((mem_sortDescBy _ r _).mp (List.take_subset 20 _ hr))
    · intro r hr
      exact hbound r ((mem_sortDescBy _ r _).mp (List.take_subset 20 _ hr))

theorem post_window_invariant_witness :
    (∀ r ∈ outW1.rows, rowWindowBound 1000 7 r)
    ∧ (∀ r ∈ outW1.globalTopByVelocity, rowWindowBound 1000 7 r)
    ∧ (∀ r ∈ outW1.globalTopByViewsPerDay, rowWindowBound 1000 7 r)
    ∧ outW1.channelSummary = summarize outW1.rows
    ∧ outW1.globalPatterns = extractNgrams (outW1.rows.map (fun r => r.title.getD []))
    ∧ cacheWF 1000 cW1 :=
  post_window_invariant provW 1000 (AnalyzeRequest.mk [str "@a"] 7 80) [] outW1 cW1
    (cacheWF_nil 1000) (by rfl)

/-- C1 counterexample: the first request at instant 1700000000000 caches
the bundle of a video published one millisecond inside its 7-day window; an
identical request 5 hours later (within the 6-hour TTL) is served from the
unexpired cache entry and returns that video even though its publishedAt is
no longer strictly after the second request's now - days cutoff. -/
theorem post_window_counterexample :
    (POST provC1 1700018000000 reqC1 (POST provC1 1700000000000 reqC1 []).2).1 =
      Except.ok outC1 ∧
    ∃ r ∈ outC1.rows, ∃ p : Int, r.publishedAt = some p ∧
      p ≤ 1700018000000 - 7 * dayMs := by
  constructor
  · have hcache : (POST provC1 1700000000000 reqC1 []).2 =
        [CacheEntry.mk (CacheKey.mk (ChannelRef.mk ChannelRefType.forHandle (str "@a")) 7 80)
          1700000000000 bundleC1] := rfl
    rw [hcache]
    rfl
  · refine ⟨rowC1, ?_, 1699395200001, rfl, by decide⟩
    show rowC1 ∈ [] ++ bundleC1.rows
    have hrows : bundleC1.rows = [rowC1] := rfl
    rw [hrows]
    simp
